import Mathlib

set_option maxHeartbeats 1000000

/-!
Verification of the stratapilot agent core against its design document.

The development shallowly embeds the Python sources:

* `jarvis/agent/jarvis_agent.py` — `PlanningModule` (task graph, Kahn topological
  sort, replanning, node updates) and `ExecutionModule`/`RetrievalModule`
  response parsing;
* `jarvis/agent/base_agent.py` — `extract_information` and
  `extract_json_from_string`;
* `oscopilot/tool_repository/manager/tool_manager.py` — `ToolManager`
  (tool library with a similarity index, metadata dict and on-disk mirrors).

Python dictionaries are embedded as insertion-ordered association lists with
unique keys (`alGet?` / `alSet` / `alDel` mirror item lookup, item assignment
and `pop`/`delete`).  Python exceptions are embedded as `Except PyErr` or as an
`Option PyErr` component of the result when the state at the moment the
exception escapes matters.  Loops whose bound is data-dependent take explicit
fuel together with a proof that the fuel suffices.
-/

/-- The Python exceptions that the embedded code can raise. -/
inductive PyErr where
  | keyError
  | indexError
  | attributeError
  | assertionError
deriving DecidableEq, Repr

/-! ### Association lists: the embedding of Python `dict` (insertion ordered) -/

/-- `d[k]` lookup returning `none` when the key is absent. -/
def alGet? {α : Type} : List (String × α) → String → Option α
  | [], _ => none
  | p :: l, k => if p.1 = k then some p.2 else alGet? l k

/-- `d.get(k, dflt)`. -/
def alGetD {α : Type} (l : List (String × α)) (k : String) (d : α) : α :=
  (alGet? l k).getD d

/-- `d[k] = v`: replace in place when the key exists, append otherwise
(Python dicts keep the position of an existing key and append new keys). -/
def alSet {α : Type} : List (String × α) → String → α → List (String × α)
  | [], k, v => [(k, v)]
  | p :: l, k, v => if p.1 = k then (k, v) :: l else p :: alSet l k v

/-- `d.pop(k, None)` / deletion by id: drop every entry with the key. -/
def alDel {α : Type} (l : List (String × α)) (k : String) : List (String × α) :=
  l.filter (fun p => decide (p.1 ≠ k))

/-- The key list of the dict, in insertion order. -/
def alKeys {α : Type} (l : List (String × α)) : List String := l.map Prod.fst

theorem alGet?_alSet {α : Type} (l : List (String × α)) (k k' : String) (v : α) :
    alGet? (alSet l k v) k' = if k' = k then some v else alGet? l k' := by
  induction l with
  | nil =>
    by_cases h : k' = k
    · simp [alSet, alGet?, h]
    · have h2 : ¬ k = k' := fun hh => h hh.symm
      simp [alSet, alGet?, h, h2]
  | cons p t ih =>
    by_cases hp : p.1 = k
    · by_cases h : k' = k
      · simp [alSet, alGet?, hp, h]
      · have h2 : ¬ k = k' := fun hh => h hh.symm
        simp [alSet, alGet?, hp, h, h2]
    · by_cases h : k' = p.1
      · have h3 : ¬ k' = k := by rw [h]; exact hp
        have h4 : p.1 = k' := h.symm
        simp [alSet, alGet?, hp, h4, h3]
      · have h4 : ¬ p.1 = k' := fun hh => h hh.symm
        simp [alSet, alGet?, hp, h4, ih]

theorem alKeys_alSet {α : Type} (l : List (String × α)) (k : String) (v : α) :
    alKeys (alSet l k v) = if k ∈ alKeys l then alKeys l else alKeys l ++ [k] := by
  induction l with
  | nil => simp [alSet, alKeys]
  | cons p t ih =>
    by_cases hp : p.1 = k
    · simp [alSet, alKeys, hp]
    · have h1 : ¬ k = p.1 := fun h => hp h.symm
      simp only [alKeys] at ih ⊢
      by_cases hm : k ∈ List.map Prod.fst t
      · simp [alSet, hp, hm, h1, ih]
      · simp [alSet, hp, hm, h1, ih]

theorem alKeys_nodup_alSet {α : Type} (l : List (String × α)) (k : String) (v : α)
    (h : (alKeys l).Nodup) : (alKeys (alSet l k v)).Nodup := by
  rw [alKeys_alSet]
  by_cases hm : k ∈ alKeys l
  · simpa [hm]
  · simpa [hm] using List.Nodup.append h (List.nodup_singleton k)
      (by intro a ha hb; simp at hb; subst hb; exact hm ha)

theorem alGet?_eq_none {α : Type} (l : List (String × α)) (k : String) :
    alGet? l k = none ↔ k ∉ alKeys l := by
  induction l with
  | nil => simp [alGet?, alKeys]
  | cons p t ih =>
    by_cases hp : p.1 = k
    · simp [alGet?, alKeys, hp]
    · have : ¬ k = p.1 := fun h => hp h.symm
      simp [alGet?, alKeys, hp, this, ih]

theorem alGet?_isSome {α : Type} (l : List (String × α)) (k : String) :
    (alGet? l k).isSome = true ↔ k ∈ alKeys l := by
  rcases h : alGet? l k with _ | v
  · simpa [h] using (alGet?_eq_none l k).mp h
  · simp only [Option.isSome_some, true_iff]
    by_contra hm
    rw [(alGet?_eq_none l k).mpr hm] at h
    exact Option.noConfusion h

theorem mem_of_alGet? {α : Type} {l : List (String × α)} {k : String} {v : α}
    (h : alGet? l k = some v) : (k, v) ∈ l := by
  induction l with
  | nil => simp [alGet?] at h
  | cons p t ih =>
    obtain ⟨a, b⟩ := p
    by_cases hp : a = k
    · subst hp
      simp [alGet?] at h
      subst h
      exact List.mem_cons_self _ _
    · simp only [alGet?] at h
      rw [if_neg hp] at h
      exact List.mem_cons_of_mem _ (ih h)

theorem alGet?_of_mem_nodup {α : Type} {l : List (String × α)} {k : String} {v : α}
    (hnd : (alKeys l).Nodup) (h : (k, v) ∈ l) : alGet? l k = some v := by
  induction l with
  | nil => simp at h
  | cons p t ih =>
    have hcons : p.1 ∉ List.map Prod.fst t ∧ (List.map Prod.fst t).Nodup := by
      rw [alKeys, List.map_cons, List.nodup_cons] at hnd
      exact hnd
    rcases List.mem_cons.mp h with h | h
    · simp [← h, alGet?]
    · have hp : ¬ p.1 = k := by
        intro hc
        apply hcons.1
        rw [hc]
        exact List.mem_map_of_mem Prod.fst h
      simp only [alGet?, if_neg hp]
      exact ih hcons.2 h

theorem alKeys_append {α : Type} (l₁ l₂ : List (String × α)) :
    alKeys (l₁ ++ l₂) = alKeys l₁ ++ alKeys l₂ := by
  simp [alKeys]

/-! ### Substring search and `BaseAgent.extract_information`

`str.find(sub)` of Python is embedded as `findSub` on character lists; the
while-loop of `extract_information` takes fuel `|message| + 1`, which suffices
because every iteration with a nonempty end marker drops at least one
character of the message. -/

/-- Whether `pat` is an initial segment of `s` (helper for `findSub`). -/
def leadsWith : List Char → List Char → Bool
  | [], _ => true
  | _ :: _, [] => false
  | a :: s, b :: t => a == b && leadsWith s t

/-- Python `str.find`: index of the first occurrence of `pat`, `none` when absent. -/
def findSub : List Char → List Char → Option Nat
  | [], pat => if pat.isEmpty then some 0 else none
  | c :: rest, pat =>
    if leadsWith pat (c :: rest) then some 0 else (findSub rest pat).map (· + 1)

/-- Python `str.strip()`: remove leading and trailing whitespace. -/
def stripChars (l : List Char) : List Char :=
  (((l.dropWhile Char.isWhitespace).reverse).dropWhile Char.isWhitespace).reverse

/-- One round of the `extract_information` while loop: find both markers, slice
the text strictly between them (Python slicing clamps a start beyond the end to
the empty string, as `List.take` of a truncated difference does), strip it, and
continue after the end marker. -/
def extractLoop (bs es : List Char) : Nat → List Char → List String
  | 0, _ => []
  | fuel + 1, msg =>
    match findSub msg bs, findSub msg es with
    | some b, some e =>
        String.mk (stripChars ((msg.drop (b + bs.length)).take (e - (b + bs.length)))) ::
          extractLoop bs es fuel (msg.drop (e + es.length))
    | some _, none => []
    | none, _ => []

/-- `BaseAgent.extract_information`: all stripped texts between successive
`begin_str`/`end_str` marker pairs, in order. -/
def extract_information (message begin_str end_str : String) : List String :=
  extractLoop begin_str.data end_str.data (message.data.length + 1) message.data

theorem extract_information_eq_nil_of_no_marker (message begin_str end_str : String)
    (h : findSub message.data begin_str.data = none ∨
         findSub message.data end_str.data = none) :
    extract_information message begin_str end_str = [] := by
  unfold extract_information extractLoop
  rcases h with h | h
  · simp [h]
  · rcases hb : findSub message.data begin_str.data with _ | b
    · simp [hb]
    · simp [hb, h]

/-! ### The Python value that `_return_val` can hold

`PlanningModule.update_action` assigns `self.extract_information(...)` — a
list — to a field initialised with the string `""`, and compares that list
against the string `'None'` with Python `!=`, which is `True` for any
list/string pair.  `RVal` captures both runtime types and `RVal.pyEq` is
Python `==` on them. -/

inductive RVal where
  | str (s : String)
  | strList (l : List String)
deriving DecidableEq, Repr

/-- Python `==` between the two value shapes: values of different types are
never equal. -/
def RVal.pyEq : RVal → RVal → Bool
  | .str a, .str b => a == b
  | .strList a, .strList b => a == b
  | _, _ => false

/-! ### `ActionNode` and the planner state

Modelled from the spec: the class `jarvis.core.action_node.ActionNode`
imported by `jarvis/agent/jarvis_agent.py` is not among the sources; its
fields follow §3 (ActionEntity: name, description, kind, completion status,
captured return value, relevant code) together with the in-repo analog
`strata/tools/manager/action_node.py` (status initially `False`, return value
initially empty) and the attributes `_code`, `_relevant_action` that
`jarvis_agent.py` itself assigns. -/

structure ActionNode where
  name : String
  description : String
  ntype : String
  code : String
  return_val : RVal
  relevant_action : Option String
  status : Bool
deriving DecidableEq, Repr

/-- `ActionNode(name, description, type)`. -/
def ActionNode.new (name description ntype : String) : ActionNode :=
  ⟨name, description, ntype, "", RVal.str "", none, false⟩

/-- The mutable attributes of `PlanningModule`: `self.action_node` (dict of
`ActionNode`s), `self.action_graph` (dict task ↦ list of its dependencies) and
`self.execute_list`. -/
structure PlannerState where
  action_node : List (String × ActionNode)
  action_graph : List (String × List String)
  execute_list : List String
deriving DecidableEq, Repr

/-- `PlanningModule.__init__`: empty node dict, empty graph, empty order. -/
def PlannerState.init : PlannerState := ⟨[], [], []⟩

/-- One entry of a parsed decomposition JSON object:
`{description, type, dependencies}`. -/
structure TaskInfo where
  description : String
  ttype : String
  dependencies : List String
deriving DecidableEq, Repr

/-- The two return paths of `BaseAgent.extract_json_from_string`: a parsed
JSON object mapping task names to task records, or the error-message *string*
(`"Error parsing JSON data: ..."` / `"No JSON data found in the string."`)
that the function returns instead of raising when the response has no
parseable fenced JSON block. -/
inductive ExtractResult where
  | parsed (tasks : List (String × TaskInfo))
  | failure (msg : String)
deriving DecidableEq, Repr

/-- The insertion loop shared by `create_action_graph` and `add_new_action`:
`self.action_node[task_name] = ActionNode(task_name, info['description'],
info['type'])`; `self.action_graph[task_name] = info['dependencies']`. -/
def insertTasks (st : PlannerState) (tasks : List (String × TaskInfo)) : PlannerState :=
  tasks.foldl (fun st p =>
    { st with
      action_node := alSet st.action_node p.1 (ActionNode.new p.1 p.2.description p.2.ttype)
      action_graph := alSet st.action_graph p.1 p.2.dependencies }) st

/-- `PlanningModule.create_action_graph(decompose_json)`: iterating
`.items()` over the value returned by `extract_json_from_string`.  When that
value is the error-message string, `.items()` raises `AttributeError` before
any mutation. -/
def create_action_graph (st : PlannerState) : ExtractResult → PlannerState × Option PyErr
  | .failure _ => (st, some PyErr.attributeError)
  | .parsed tasks => (insertTasks st tasks, none)

/-- `PlanningModule.add_new_action(new_task_json, current_task)`: insert the
new tasks exactly as `create_action_graph` does, then
`self.action_graph[current_task].append(list(new_task_json.keys())[-1])`;
`[-1]` on an empty key list raises `IndexError`. -/
def add_new_action (st : PlannerState) (tasks : List (String × TaskInfo))
    (current_task : String) : Except PyErr PlannerState :=
  let st1 := tasks.foldl (fun st p =>
    { st with
      action_node := alSet st.action_node p.1 (ActionNode.new p.1 p.2.description p.2.ttype)
      action_graph := alSet st.action_graph p.1 p.2.dependencies }) st
  match (tasks.map Prod.fst).getLast? with
  | none => .error PyErr.indexError
  | some last_new_task =>
      .ok { st1 with
            action_graph := alSet st1.action_graph current_task
              (alGetD st1.action_graph current_task [] ++ [last_new_task]) }

/-- `PlanningModule.update_action(action, code, return_val, relevant_action,
status)`.  Python defaults are `code=''`, `return_val=''`,
`relevant_action=None`, `status=False`; `self.action_node[action]` raises
`KeyError` when the name is unknown.  Each guard is a Python truthiness test:
`if code:` / `if return_val:` / `if relevant_action:` are false for `''` and
for `None`, so a passed empty string leaves the field unchanged.  The
extracted `<return>` text is the *list* produced by `extract_information`,
and the guard compares that list with the string `'None'`. -/
def update_action (st : PlannerState) (action : String) (code : String)
    (return_val : String) (relevant_action : Option String) (status : Bool) :
    Except PyErr PlannerState :=
  match alGet? st.action_node action with
  | none => .error PyErr.keyError
  | some nd =>
      let nd1 := if code ≠ "" then { nd with code := code } else nd
      let nd2 :=
        if return_val ≠ "" then
          let extracted := extract_information return_val "<return>" "</return>"
          if (RVal.strList extracted).pyEq (RVal.str "None") then nd1
          else { nd1 with return_val := RVal.strList extracted }
        else nd1
      let nd3 := match relevant_action with
        | some ra => if ra ≠ "" then { nd2 with relevant_action := some ra } else nd2
        | none => nd2
      let nd4 := { nd3 with status := status }
      .ok { st with action_node := alSet st.action_node action nd4 }

/-! ### `RetrievalModule` / `ExecutionModule` response parsing -/

/-- Python `str.split(sep)` with a nonempty separator; fuel `|s| + 1`
suffices since every round consumes at least the separator. -/
def splitOnList (sep : List Char) : Nat → List Char → List (List Char)
  | 0, s => [s]
  | fuel + 1, s =>
    match findSub s sep with
    | none => [s]
    | some i => s.take i :: splitOnList sep fuel (s.drop (i + sep.length))

/-- Python `s.split(sep)` on strings. -/
def pySplit (s sep : String) : List String :=
  (splitOnList sep.data (s.data.length + 1) s.data).map String.mk

/-- Python `sub in s`. -/
def pyContains (s sub : String) : Bool := (findSub s.data sub.data).isSome

/-- `ExecutionModule.extract_python_code(response)`: the text between the
first ` ```python ` fence and the next ` ``` `; the `elif` branch tests
`'```' in python_code` where `python_code` is still the empty string, so it
never fires. -/
def extract_python_code (response : String) : String :=
  let python_code := ""
  if pyContains response "```python" then
    (pySplit ((pySplit response "```python").getD 1 "") "```").headD ""
  else if pyContains python_code "```" then
    (pySplit ((pySplit response "```").getD 1 "") "```").headD ""
  else python_code

/-- `RetrievalModule.action_code_filter(action_code_pair, task)`, from the
point where the collaborator response is in hand.  The action-library lookup
`self.action_lib.get_action_code` is passed as a function.  Indexing `[0]`
into the extraction raises `IndexError` when no `<action>` pair is present. -/
def action_code_filter (get_action_code : String → Except PyErr String)
    (response : String) : Except PyErr String :=
  match extract_information response "<action>" "</action>" with
  | [] => .error PyErr.indexError
  | action_name :: _ =>
      if action_name ≠ "" then get_action_code action_name else .ok ""

/-- `ExecutionModule.generate_action(...)`, from the point where the
collaborator response `create_msg` is in hand: returns `(code, invoke)`;
indexing `[0]` into the `<invoke>` extraction raises `IndexError` when no
pair is present. -/
def generate_action (create_msg : String) : Except PyErr (String × String) :=
  let code := extract_python_code create_msg
  match extract_information create_msg "<invoke>" "</invoke>" with
  | [] => .error PyErr.indexError
  | invoke :: _ => .ok (code, invoke)

/-! ### `ToolManager` (the ActionLibrary)

The state carries the in-memory metadata dict `self.generated_tools`, the
similarity index (the Chroma collection, embedded as its id/document list),
and the on-disk mirrors (`generated_tools.json`, `tool_code/`,
`tool_description/`). -/

structure ToolEntry where
  code : String
  description : String
deriving DecidableEq, Repr

structure ToolManagerState where
  generated_tools : List (String × ToolEntry)
  vectordb : List (String × String)
  diskJson : List (String × ToolEntry)
  codeFiles : List (String × String)
  descFiles : List (String × String)
deriving DecidableEq, Repr

/-- `ToolManager.get_tool_code(tool_name)`: `self.generated_tools[tool_name]["code"]`,
`KeyError` when absent. -/
def get_tool_code (st : ToolManagerState) (tool_name : String) : Except PyErr String :=
  match alGet? st.generated_tools tool_name with
  | some entry => .ok entry.code
  | none => .error PyErr.keyError

/-- The `info` argument of `add_new_tool`: `{task_name, code, description}`. -/
structure ToolInfo where
  task_name : String
  code : String
  description : String
deriving DecidableEq, Repr

/-- `ToolManager.add_new_tool(info)`: delete the old index entry when the name
is already registered, add the description to the index, update the in-memory
metadata, `assert` the index count equals the metadata count
(`AssertionError` aborts the operation), then write the code/description
files and dump the metadata JSON. -/
def add_new_tool (st : ToolManagerState) (info : ToolInfo) : Except PyErr ToolManagerState :=
  let db1 := if (alGet? st.generated_tools info.task_name).isSome then
      alDel st.vectordb info.task_name
    else st.vectordb
  let db2 := db1 ++ [(info.task_name, info.description)]
  let tools := alSet st.generated_tools info.task_name ⟨info.code, info.description⟩
  if db2.length = tools.length then
    .ok { generated_tools := tools
          vectordb := db2
          diskJson := tools
          codeFiles := alSet st.codeFiles info.task_name info.code
          descFiles := alSet st.descFiles info.task_name info.description }
  else .error PyErr.assertionError

/-- `ToolManager.delete_tool(tool)`: delete the index entry when the name is
in the in-memory metadata, pop the name from the JSON *file*, and remove the
on-disk code/description files, tolerating absence.  The in-memory
`self.generated_tools` is not touched and no count check is performed. -/
def delete_tool (st : ToolManagerState) (tool : String) : ToolManagerState :=
  { generated_tools := st.generated_tools
    vectordb := if (alGet? st.generated_tools tool).isSome then
        alDel st.vectordb tool
      else st.vectordb
    diskJson := alDel st.diskJson tool
    codeFiles := alDel st.codeFiles tool
    descFiles := alDel st.descFiles tool }

/-- `ToolManager.exist_tool(tool)`. -/
def exist_tool (st : ToolManagerState) (tool : String) : Bool :=
  (alGet? st.generated_tools tool).isSome

/-- `ToolManager.retrieve_tool_name(query, k)`: clamp `k` to the collection
count, return `[]` when the clamp is zero, otherwise take the `k` best-scored
entries.  The numerical ranking of the external vector store is a parameter
`score`; its contract (at most `k` results, drawn from the collection) is the
sort-and-take below. -/
def retrieve_tool_name (score : String → String → Int) (st : ToolManagerState)
    (query : String) (k : Nat) : List String :=
  if min st.vectordb.length k = 0 then []
  else
    ((st.vectordb.insertionSort
        (fun a b => score query a.2 ≥ score query b.2)).take
      (min st.vectordb.length k)).map Prod.fst

/-! ### The Executor's amend loop

Modelled from the spec: the generate–execute–judge–amend loop of §4.4 is not
among the sources — `ExecutionModule.__init__` only stores `max_iter` — so the
loop is modelled from the spec's words: each judged failure consumes one
repair attempt, at most `max_iter` attempts are made, and exhausting the
budget surfaces an explicit exhausted-retries failure instead of looping.
`judge n` is the collaborator's verdict on the state after `n` repair
attempts. -/

inductive SubtaskOutcome where
  | done (attemptsUsed : Nat)
  | failedExplicit (attemptsUsed : Nat)
deriving DecidableEq, Repr

/-- Number of repair attempts an outcome consumed. -/
def SubtaskOutcome.attempts : SubtaskOutcome → Nat
  | .done n => n
  | .failedExplicit n => n

/-- Modelled from the spec: the amend loop with remaining budget `budget` and
`used` attempts already consumed. -/
def amendRun (judge : Nat → Bool) : Nat → Nat → SubtaskOutcome
  | 0, used => .failedExplicit used
  | budget + 1, used => if judge used then .done used else amendRun judge budget (used + 1)

/-- Modelled from the spec: driving one subtask with the retry budget
`max_iter` of `ExecutionModule.__init__`. -/
def execute_subtask (max_iter : Nat) (judge : Nat → Bool) : SubtaskOutcome :=
  amendRun judge max_iter 0

/-! ### `PlanningModule.topological_sort`

The method first resets `self.execute_list`, then builds a *reversed* filtered
graph `graph` (`defaultdict(list)`): for every not-yet-executed node of
`self.action_graph` it inserts the node with `setdefault`, and for every
not-yet-executed dependency it appends the node to `graph[dependency]`.  It
then counts in-degrees, runs Kahn's queue loop appending to
`self.execute_list`, and finally returns `None` after printing when every
filtered node was placed, or the cycle-message string otherwise.  Looking up
`self.action_node[...]` for an unknown name raises `KeyError`. -/

/-- `graph` of `topological_sort`: dependency name ↦ the nodes that depend on
it, restricted to not-yet-executed nodes. -/
abbrev RevGraph := List (String × List String)

/-- `not self.action_node[v].status`, total form: `false` when the name is
unknown (the fallible lookup is `buildGraph` below). -/
def undoneB (st : PlannerState) (v : String) : Bool :=
  match alGet? st.action_node v with
  | some nd => !nd.status
  | none => false

/-- `graph.setdefault(node, [])`. -/
def alSetd (g : RevGraph) (k : String) : RevGraph :=
  if (alGet? g k).isSome then g else g ++ [(k, [])]

/-- The body of the graph-building loop for one entry
`(node, dependencies)` of `self.action_graph`, with the `KeyError` of the
status lookups made explicit. -/
def buildRow (st : PlannerState) (g : RevGraph) (node : String)
    (dependencies : List String) : Except PyErr RevGraph := do
  match alGet? st.action_node node with
  | none => .error PyErr.keyError
  | some nd =>
    if !nd.status then
      let g := alSetd g node
      dependencies.foldlM (fun g dependent =>
        match alGet? st.action_node dependent with
        | none => .error PyErr.keyError
        | some dd =>
          if !dd.status then
            .ok (alSet g dependent (alGetD g dependent [] ++ [node]))
          else .ok g) g
    else .ok g

/-- The filtered-graph construction of `topological_sort`. -/
def buildGraph (st : PlannerState) : Except PyErr RevGraph :=
  st.action_graph.foldlM (fun g p => buildRow st g p.1 p.2) []

/-- Total mirror of `buildRow` (used by the proofs; under the closure
hypothesis `buildGraph` returns exactly this). -/
def buildRowT (st : PlannerState) (g : RevGraph) (node : String)
    (dependencies : List String) : RevGraph :=
  if undoneB st node then
    dependencies.foldl (fun g dependent =>
      if undoneB st dependent then
        alSet g dependent (alGetD g dependent [] ++ [node])
      else g) (alSetd g node)
  else g

/-- Total mirror of `buildGraph`. -/
def buildGraphT (st : PlannerState) : RevGraph :=
  st.action_graph.foldl (fun g p => buildRowT st g p.1 p.2) []

/-- `in_degree = {node: 0 for node in graph}` followed by the counting loop. -/
def initInDegree (g : RevGraph) : List (String × Int) :=
  g.foldl (fun d p => p.2.foldl (fun d v => alSet d v (alGetD d v 0 + 1)) d)
    (g.map (fun p => (p.1, (0 : Int))))

/-- The inner `for dependent in graph[current]` loop of the Kahn iteration:
decrement each in-degree (`in_degree[dependent] -= 1`), appending the node to
the queue the moment its count reaches zero. -/
def kahnStep (outs : List String) (dq : List (String × Int) × List String) :
    List (String × Int) × List String :=
  outs.foldl (fun dq dependent =>
    if alGetD dq.1 dependent 0 - 1 = 0 then
      (alSet dq.1 dependent (alGetD dq.1 dependent 0 - 1), dq.2 ++ [dependent])
    else
      (alSet dq.1 dependent (alGetD dq.1 dependent 0 - 1), dq.2)) dq

/-- The `while queue:` loop of `topological_sort`; `fuel` bounds the number of
pops (`|graph| + 1` suffices, because each pop appends a fresh node of the
graph to the order). -/
def kahnLoop (g : RevGraph) : Nat → List (String × Int) → List String → List String →
    List (String × Int) × List String
  | 0, d, _, acc => (d, acc)
  | _ + 1, d, [], acc => (d, acc)
  | fuel + 1, d, current :: rest, acc =>
      let dq := kahnStep (alGetD g current []) (d, rest)
      kahnLoop g fuel dq.1 dq.2 (acc ++ [current])

/-- The string literal returned when the order is shorter than the graph. -/
def cycleMsg : String := "Cycle detected in the graph, topological sort not possible."

/-- Result of `topological_sort`: the planner state as left behind, the
method's return value (`none` on success, the cycle message otherwise), and
the exception if one escaped. -/
structure SortResult where
  state : PlannerState
  retMsg : Option String
  err : Option PyErr
deriving DecidableEq, Repr

/-- `PlanningModule.topological_sort`. -/
def topological_sort (st : PlannerState) : SortResult :=
  let st0 := { st with execute_list := [] }
  match buildGraph st0 with
  | .error e => ⟨st0, none, some e⟩
  | .ok g =>
      let in_degree := initInDegree g
      let queue := (in_degree.filter (fun p => p.2 = 0)).map Prod.fst
      let result := kahnLoop g (g.length + 1) in_degree queue []
      let st1 := { st0 with execute_list := result.2 }
      if result.2.length = g.length then ⟨st1, none, none⟩
      else ⟨st1, some cycleMsg, none⟩

/-- `PlanningModule.decompose_task`, from the point where the collaborator
response has been passed through `extract_json_from_string`: build the graph
(an error-message string makes `.items()` raise before any mutation), then
recompute the topological order.  The cycle message that `topological_sort`
may return is discarded, as in the source. -/
def decompose_task (st : PlannerState) (extracted : ExtractResult) :
    PlannerState × Option PyErr :=
  match create_action_graph st extracted with
  | (st1, some e) => (st1, some e)
  | (st1, none) =>
      let r := topological_sort st1
      (r.state, r.err)

/-! ### Further association-list lemmas -/

theorem length_alSet {α : Type} (l : List (String × α)) (k : String) (v : α) :
    (alSet l k v).length = if k ∈ alKeys l then l.length else l.length + 1 := by
  induction l with
  | nil => simp [alSet, alKeys]
  | cons p t ih =>
    by_cases hp : p.1 = k
    · simp [alSet, alKeys, hp]
    · have h1 : ¬ k = p.1 := fun h => hp h.symm
      have hrec : alSet (p :: t) k v = p :: alSet t k v := by simp [alSet, hp]
      rw [hrec, List.length_cons, ih]
      by_cases hm : k ∈ alKeys t
      · simp only [alKeys] at hm
        simp [alKeys, hm, h1]
      · simp only [alKeys] at hm
        simp [alKeys, hm, h1]

theorem alDel_eq_of_not_mem {α : Type} {l : List (String × α)} {k : String}
    (h : k ∉ alKeys l) : alDel l k = l := by
  induction l with
  | nil => rfl
  | cons p t ih =>
    simp [alKeys] at h
    have hp : ¬ p.1 = k := fun hc => h.1 hc.symm
    simp [alDel, hp] at *
    exact ih (by simpa [alKeys] using h.2)

theorem length_alDel_of_mem_nodup {α : Type} {l : List (String × α)} {k : String}
    (hnd : (alKeys l).Nodup) (h : k ∈ alKeys l) : (alDel l k).length + 1 = l.length := by
  induction l with
  | nil => simp [alKeys] at h
  | cons p t ih =>
    obtain ⟨a, b⟩ := p
    have hcons : a ∉ List.map Prod.fst t ∧ (List.map Prod.fst t).Nodup := by
      rw [alKeys, List.map_cons, List.nodup_cons] at hnd
      exact hnd
    by_cases hp : a = k
    · subst hp
      have hdel : alDel t a = t := alDel_eq_of_not_mem hcons.1
      have h2 : alDel ((a, b) :: t) a = alDel t a := by
        simp [alDel, List.filter_cons]
      rw [h2, hdel]
      simp
    · have hk : k ∈ alKeys t := by
        rw [alKeys, List.map_cons, List.mem_cons] at h
        rcases h with h | h
        · exact absurd h.symm hp
        · rw [alKeys]; exact h
      have := ih hcons.2 hk
      simp [alDel, hp] at this ⊢
      omega

/-! ### Claim C1 — index/metadata count invariant of the ActionLibrary -/

/-- A library state with a single registered tool, index and metadata in sync
(the state a fresh `ToolManager` asserts at load). -/
def tmOneTool : ToolManagerState :=
  ⟨[("t1", ⟨"C", "D"⟩)], [("t1", "D")], [("t1", ⟨"C", "D"⟩)], [("t1", "C")], [("t1", "D")]⟩

/-- C1: the claim fails on the code.  `delete_tool` removes the similarity-index
entry but leaves the in-memory metadata dict untouched and performs no count
check, so after deleting the only tool the index holds 0 entries while the
metadata holds 1; the very next `add_new_tool` of a fresh name then aborts on
its count assertion. -/
theorem C1_delete_tool_breaks_count_invariant :
    (delete_tool tmOneTool "t1").vectordb.length = 0 ∧
    (delete_tool tmOneTool "t1").generated_tools.length = 1 ∧
    add_new_tool (delete_tool tmOneTool "t1") ⟨"t2", "C2", "D2"⟩ =
      .error PyErr.assertionError := by
  refine ⟨rfl, rfl, rfl⟩

/-! ### Claim C4 — the Executor's amend loop is bounded by `max_iter` -/

theorem amendRun_attempts_le (judge : Nat → Bool) (budget used : Nat) :
    (amendRun judge budget used).attempts ≤ used + budget := by
  induction budget generalizing used with
  | zero => simp [amendRun, SubtaskOutcome.attempts]
  | succ b ih =>
    rw [amendRun]
    by_cases h : judge used
    · simp only [h, if_pos, SubtaskOutcome.attempts]
      omega
    · simp only [h, if_neg, Bool.false_eq_true, if_false]
      have := ih (used + 1)
      omega

theorem amendRun_all_fail (judge : Nat → Bool) (h : ∀ n, judge n = false)
    (budget used : Nat) : amendRun judge budget used = .failedExplicit (used + budget) := by
  induction budget generalizing used with
  | zero => simp [amendRun]
  | succ b ih =>
    rw [amendRun]
    simp [h used]
    rw [ih (used + 1)]
    congr 1
    omega

/-- C4: for any collaborator verdict sequence the subtask driver consumes at
most `max_iter` repair attempts, and when every verdict is a failure it stops
with an explicit exhausted-retries failure after exactly `max_iter` attempts
rather than looping. -/
theorem C4_amend_loop_bounded_by_max_iter (max_iter : Nat) (judge : Nat → Bool) :
    (execute_subtask max_iter judge).attempts ≤ max_iter ∧
    ((∀ n, judge n = false) →
      execute_subtask max_iter judge = .failedExplicit max_iter) := by
  constructor
  · have := amendRun_attempts_le judge max_iter 0
    simpa [execute_subtask] using this
  · intro h
    have := amendRun_all_fail judge h max_iter 0
    simpa [execute_subtask] using this

/-- Witness for C4 at `max_iter = 3` and a collaborator that always fails. -/
theorem C4_witness :
    (execute_subtask 3 (fun _ => false)).attempts ≤ 3 ∧
    execute_subtask 3 (fun _ => false) = .failedExplicit 3 :=
  ⟨(C4_amend_loop_bounded_by_max_iter 3 (fun _ => false)).1,
   (C4_amend_loop_bounded_by_max_iter 3 (fun _ => false)).2 (fun _ => rfl)⟩

/-! ### Claim C5 — decompose on an unparseable collaborator response -/

/-- A planner state with one existing task, to witness that nothing changes. -/
def stBeforeDecompose : PlannerState :=
  ⟨[("t", ActionNode.new "t" "d" "f")], [("t", [])], ["t"]⟩

/-- C5: the claim fails on the code.  On a response with no parseable JSON
block, `extract_json_from_string` returns the error-message *string*, and
`decompose_task` hands that string to `create_action_graph`, whose `.items()`
call raises `AttributeError` — a crash, not a report.  The graph is left
unchanged because the exception precedes every mutation. -/
theorem C5_decompose_crashes_on_unparseable_response :
    decompose_task stBeforeDecompose
        (ExtractResult.failure "No JSON data found in the string.") =
      (stBeforeDecompose, some PyErr.attributeError) := rfl

/-! ### Claim C8 — similarity search is clamped and total -/

/-- C8: for every ranking of the external index, every query and every `k`,
the search returns at most `min k total` names, and on an empty library it
returns `[]` (it cannot raise — the embedding is a total function). -/
theorem C8_retrieve_tool_name_clamped (score : String → String → Int)
    (st : ToolManagerState) (query : String) (k : Nat) :
    (retrieve_tool_name score st query k).length ≤ min k st.vectordb.length ∧
    retrieve_tool_name score { st with vectordb := [] } query k = [] := by
  constructor
  · rw [retrieve_tool_name]
    by_cases h : min st.vectordb.length k = 0
    · simp [h]
    · rw [if_neg h]
      simp only [List.length_map, List.length_take, List.length_insertionSort]
      omega
  · simp [retrieve_tool_name]

/-! ### Claim C9 — add/get round trip and NotFound on absent names -/

/-- The load-time invariant of the library: index and metadata have the same
cardinality and the same names, each without duplicates. -/
def SyncedLib (st : ToolManagerState) : Prop :=
  st.vectordb.length = st.generated_tools.length ∧
  (∀ n, n ∈ alKeys st.vectordb ↔ n ∈ alKeys st.generated_tools) ∧
  (alKeys st.vectordb).Nodup ∧ (alKeys st.generated_tools).Nodup

/-- C9: from any in-sync library state, `add_new_tool` succeeds and a
subsequent `get_tool_code` of the same name returns exactly the code that was
added; `get_tool_code` of an unregistered name raises `KeyError` instead of
returning a value. -/
theorem C9_add_get_roundtrip (st : ToolManagerState) (h : SyncedLib st)
    (n c d : String) :
    (∃ st', add_new_tool st ⟨n, c, d⟩ = .ok st' ∧ get_tool_code st' n = .ok c) ∧
    (∀ st2 : ToolManagerState, ∀ m, alGet? st2.generated_tools m = none →
      get_tool_code st2 m = .error PyErr.keyError) := by
  constructor
  · have hlen : (if (alGet? st.generated_tools n).isSome then
        alDel st.vectordb n else st.vectordb).length + 1 =
        (alSet st.generated_tools n ⟨c, d⟩).length := by
      by_cases hm : n ∈ alKeys st.generated_tools
      · have hs : (alGet? st.generated_tools n).isSome = true :=
          (alGet?_isSome _ _).mpr hm
        have hdb : n ∈ alKeys st.vectordb := (h.2.1 n).mpr hm
        rw [if_pos hs, length_alSet, if_pos hm,
          length_alDel_of_mem_nodup h.2.2.1 hdb, h.1]
      · have hs : ¬ (alGet? st.generated_tools n).isSome = true := by
          rw [alGet?_isSome]; exact hm
        have hdb : n ∉ alKeys st.vectordb := fun hc => hm ((h.2.1 n).mp hc)
        rw [if_neg hs, length_alSet, if_neg hm, h.1]
    have hcond : ((if (alGet? st.generated_tools n).isSome then alDel st.vectordb n
        else st.vectordb) ++ [(n, d)]).length =
        (alSet st.generated_tools n ⟨c, d⟩).length := by
      rw [List.length_append]
      simpa using hlen
    refine ⟨{ generated_tools := alSet st.generated_tools n ⟨c, d⟩
              vectordb := (if (alGet? st.generated_tools n).isSome then
                  alDel st.vectordb n else st.vectordb) ++ [(n, d)]
              diskJson := alSet st.generated_tools n ⟨c, d⟩
              codeFiles := alSet st.codeFiles n c
              descFiles := alSet st.descFiles n d }, ?_, ?_⟩
    · simp only [add_new_tool]
      rw [if_pos hcond]
    · rw [get_tool_code]
      simp [alGet?_alSet]
  · intro st2 m hm
    rw [get_tool_code, hm]

/-- Witness for C9: the empty library is in sync; adding `t1 ↦ (C, D)` then
reading `t1` yields `C`, and reading from the empty library raises. -/
theorem C9_witness :
    (∃ st', add_new_tool ⟨[], [], [], [], []⟩ ⟨"t1", "C", "D"⟩ = .ok st' ∧
      get_tool_code st' "t1" = .ok "C") ∧
    get_tool_code ⟨[], [], [], [], []⟩ "t1" = .error PyErr.keyError := by
  have h : SyncedLib ⟨[], [], [], [], []⟩ :=
    ⟨rfl, fun n => Iff.rfl, List.nodup_nil, List.nodup_nil⟩
  exact ⟨(C9_add_get_roundtrip _ h "t1" "C" "D").1,
    (C9_add_get_roundtrip _ h "t1" "C" "D").2 _ "t1" rfl⟩

/-! ### Claim C10 — effect and frame of `update_action` -/

/-- A planner state whose node `a` carries a previously captured return
value. -/
def stWithReturn : PlannerState :=
  ⟨[("a", { ActionNode.new "a" "d" "f" with return_val := RVal.str "old" })],
   [("a", [])], []⟩

/-- C10 fails on the code: passing `return_val = "<return>None</return>"`,
whose first (and only) extracted marker text is the literal `'None'`, still
replaces the stored return value — with the extraction *list* `["None"]` —
because the guard compares that list against the string `'None'` and a list
never equals a string in Python. -/
theorem C10_counterexample_none_is_stored :
    (update_action stWithReturn "a" "" "<return>None</return>" none true).map
        (fun st' => (alGetD st'.action_node "a" (ActionNode.new "a" "d" "f")).return_val) =
      .ok (RVal.strList ["None"]) ∧
    RVal.strList ["None"] ≠ RVal.str "old" := by
  exact ⟨rfl, by decide⟩

/-- C10, amended: `update_action` always stores the passed status; the code is
replaced only when a nonempty `code` is passed; the relevant-action field only
when a truthy (non-`None`, nonempty) one is passed; but the return value is
replaced whenever the `return_val` argument is a nonempty string — it becomes
the *list* of all texts extracted between `<return>`/`</return>` pairs
(possibly the empty list), the `!= 'None'` guard never suppressing the update
since it compares a list with a string.  Other nodes, the graph and the order
are untouched; an unknown node name raises `KeyError`. -/
theorem C10_update_action_characterization (st : PlannerState) (a code rv : String)
    (ra : Option String) (status : Bool) (nd : ActionNode)
    (h : alGet? st.action_node a = some nd) :
    (∃ st', update_action st a code rv ra status = .ok st' ∧
      st'.action_graph = st.action_graph ∧
      st'.execute_list = st.execute_list ∧
      alGet? st'.action_node a = some
        { name := nd.name, description := nd.description, ntype := nd.ntype,
          code := if code ≠ "" then code else nd.code,
          return_val := if rv ≠ "" then
              RVal.strList (extract_information rv "<return>" "</return>")
            else nd.return_val,
          relevant_action := match ra with
            | some r => if r ≠ "" then some r else nd.relevant_action
            | none => nd.relevant_action,
          status := status } ∧
      (∀ b, b ≠ a → alGet? st'.action_node b = alGet? st.action_node b)) ∧
    (∀ st2 : PlannerState, ∀ a2 : String, alGet? st2.action_node a2 = none →
      update_action st2 a2 code rv ra status = .error PyErr.keyError) := by
  constructor
  · rw [update_action, h]
    refine ⟨_, rfl, rfl, rfl, ?_, ?_⟩
    · rw [alGet?_alSet, if_pos rfl]
      congr 1
      rcases ra with _ | r
      · by_cases hc : code ≠ "" <;> by_cases hr : rv ≠ "" <;>
          simp [hc, hr, RVal.pyEq]
      · by_cases hc : code ≠ "" <;> by_cases hr : rv ≠ "" <;>
          by_cases hra : r ≠ "" <;>
          simp [hc, hr, hra, RVal.pyEq]
    · intro b hb
      rw [alGet?_alSet, if_neg hb]
  · intro st2 a2 h2
    rw [update_action, h2]

/-- Witness for C10 at a concrete state: the status flag is set and the
`<return>` extraction list is stored. -/
theorem C10_witness :
    ∃ st', update_action stWithReturn "a" "" "<return>42</return>" none true = .ok st' ∧
      alGet? st'.action_node "a" = some
        { name := "a", description := "d", ntype := "f", code := "",
          return_val := RVal.strList ["42"], relevant_action := none,
          status := true } := by
  obtain ⟨⟨st', h1, _, _, h4, _⟩, _⟩ :=
    C10_update_action_characterization stWithReturn "a" "" "<return>42</return>"
      none true { ActionNode.new "a" "d" "f" with return_val := RVal.str "old" } rfl
  refine ⟨st', h1, ?_⟩
  rw [h4]
  rfl

/-! ### Claim C6 — marker-delimited parsers on responses without markers -/

/-- C6 fails on the code: on a collaborator response containing no
`<action>`/`<invoke>` marker pair, `extract_information` itself returns `[]`
without error, but `action_code_filter` and `generate_action` index `[0]`
into that empty list and raise `IndexError` instead of treating it as an
empty extraction. -/
theorem C6_counterexample_no_marker_crash :
    action_code_filter (fun _ => .ok "") "a response without any markers" =
      .error PyErr.indexError ∧
    generate_action "a response without any markers" = .error PyErr.indexError := by
  exact ⟨rfl, rfl⟩

/-- C6, amended: `extract_information` collects every marker-delimited match
and yields `[]` without raising when either marker is absent;
`action_code_filter` and `generate_action` consume the *first* extracted
match when one exists, but fail with `IndexError` on a response with no
marker pair. -/
theorem C6_parser_behaviour :
    (∀ message b e : String,
      (findSub message.data b.data = none ∨ findSub message.data e.data = none) →
      extract_information message b e = []) ∧
    (∀ gac : String → Except PyErr String, ∀ response : String,
      extract_information response "<action>" "</action>" = [] →
      action_code_filter gac response = .error PyErr.indexError) ∧
    (∀ gac : String → Except PyErr String, ∀ response a : String, ∀ rest : List String,
      extract_information response "<action>" "</action>" = a :: rest →
      action_code_filter gac response = if a ≠ "" then gac a else .ok "") ∧
    (∀ response : String,
      extract_information response "<invoke>" "</invoke>" = [] →
      generate_action response = .error PyErr.indexError) ∧
    (∀ response i : String, ∀ rest : List String,
      extract_information response "<invoke>" "</invoke>" = i :: rest →
      generate_action response = .ok (extract_python_code response, i)) := by
  refine ⟨extract_information_eq_nil_of_no_marker, ?_, ?_, ?_, ?_⟩
  · intro gac response h
    rw [action_code_filter, h]
  · intro gac response a rest h
    rw [action_code_filter, h]
  · intro response h
    rw [generate_action, h]
  · intro response i rest h
    rw [generate_action, h]

/-- Witness for C6: a markerless response makes both parsers raise, and a
response with an `<invoke>` pair yields its first match. -/
theorem C6_witness :
    action_code_filter (fun nm => .ok nm) "plain text" = .error PyErr.indexError ∧
    generate_action "<invoke>f()</invoke>" = .ok ("", "f()") := by
  refine ⟨C6_parser_behaviour.2.1 _ "plain text" rfl, ?_⟩
  have h := C6_parser_behaviour.2.2.2.2 "<invoke>f()</invoke>" "f()" [] rfl
  rw [h]
  rfl

/-! ### The filtered graph: edges and remaining in-degrees -/

/-- An edge of the reversed filtered graph built by `topological_sort`:
`v ∈ graph[u]` means `v` depends on `u`, so `u` must be placed first. -/
def EdgeG (g : RevGraph) (u v : String) : Prop :=
  ∃ outs, alGet? g u = some outs ∧ v ∈ outs

/-- Number of in-edges of `v` (with multiplicity) whose source is not yet in
`acc`; this is the quantity `in_degree[v]` tracks during the Kahn loop, `acc`
being the list of already-popped nodes. -/
def predsOut (g : RevGraph) (acc : List String) (v : String) : Nat :=
  ((g.filter (fun p => decide (p.1 ∉ acc))).map (fun p => p.2.count v)).sum

theorem edgeG_iff_mem_getD (g : RevGraph) (u v : String) :
    EdgeG g u v ↔ v ∈ alGetD g u [] := by
  rcases h : alGet? g u with _ | outs
  · simp [EdgeG, h, alGetD]
  · simp [EdgeG, h, alGetD]

theorem edgeG_source_mem (g : RevGraph) {u v : String} (h : EdgeG g u v) :
    u ∈ alKeys g := by
  obtain ⟨outs, ho, _⟩ := h
  by_contra hm
  rw [(alGet?_eq_none g u).mpr hm] at ho
  exact Option.noConfusion ho

theorem predsOut_cons (p : String × List String) (t : RevGraph) (acc : List String)
    (v : String) :
    predsOut (p :: t) acc v =
      (if p.1 ∈ acc then 0 else p.2.count v) + predsOut t acc v := by
  by_cases h : p.1 ∈ acc
  · simp [predsOut, List.filter_cons, h]
  · simp [predsOut, List.filter_cons, h]

theorem predsOut_eq_zero_iff {g : RevGraph} (hND : (alKeys g).Nodup)
    (acc : List String) (v : String) :
    predsOut g acc v = 0 ↔ ∀ u, EdgeG g u v → u ∈ acc := by
  constructor
  · intro h u he
    obtain ⟨outs, ho, hv⟩ := he
    by_contra hu
    have hrow : (u, outs) ∈ g.filter (fun p => decide (p.1 ∉ acc)) := by
      rw [List.mem_filter]
      exact ⟨mem_of_alGet? ho, by simpa using hu⟩
    have hz := (List.sum_eq_zero_iff.mp h) (outs.count v)
      (List.mem_map_of_mem _ hrow)
    rw [List.count_eq_zero] at hz
    exact hz hv
  · intro h
    refine List.sum_eq_zero_iff.mpr ?_
    intro x hx
    rw [List.mem_map] at hx
    obtain ⟨p, hp, hpx⟩ := hx
    rw [List.mem_filter] at hp
    rw [← hpx, List.count_eq_zero]
    intro hv
    have he : EdgeG g p.1 v := ⟨p.2, alGet?_of_mem_nodup hND hp.1, hv⟩
    have := h p.1 he
    simpa [this] using hp.2

theorem predsOut_congr {g : RevGraph} {acc acc' : List String}
    (h : ∀ p ∈ g, (p.1 ∈ acc ↔ p.1 ∈ acc')) (v : String) :
    predsOut g acc v = predsOut g acc' v := by
  induction g with
  | nil => rfl
  | cons p t ih =>
    rw [predsOut_cons, predsOut_cons,
      ih (fun q hq => h q (List.mem_cons_of_mem p hq))]
    have hp := h p (List.mem_cons_self p t)
    by_cases hm : p.1 ∈ acc
    · rw [if_pos hm, if_pos (hp.mp hm)]
    · rw [if_neg hm, if_neg (fun hc => hm (hp.mpr hc))]

theorem predsOut_append {g : RevGraph} (hND : (alKeys g).Nodup) {u : String}
    {outs : List String} (hrow : alGet? g u = some outs) {acc : List String}
    (hacc : u ∉ acc) (v : String) :
    predsOut g acc v = predsOut g (acc ++ [u]) v + outs.count v := by
  induction g with
  | nil => simp [alGet?] at hrow
  | cons p t ih =>
    have hcons : p.1 ∉ List.map Prod.fst t ∧ (List.map Prod.fst t).Nodup := by
      rw [alKeys, List.map_cons, List.nodup_cons] at hND
      exact hND
    rw [predsOut_cons, predsOut_cons]
    by_cases hp : p.1 = u
    · have houts : outs = p.2 := by
        simp only [alGet?, if_pos hp] at hrow
        exact (Option.some.injEq _ _ ▸ hrow).symm
      subst houts
      have htail : predsOut t acc v = predsOut t (acc ++ [u]) v := by
        apply predsOut_congr
        intro q hq
        have hqu : q.1 ≠ u := by
          intro hc
          apply hcons.1
          rw [hp, ← hc]
          exact List.mem_map_of_mem Prod.fst hq
        simp [List.mem_append, hqu]
      have hpacc : p.1 ∉ acc := by rw [hp]; exact hacc
      have hpacc' : p.1 ∈ acc ++ [u] := by simp [hp]
      rw [if_neg hpacc, if_pos hpacc', htail]
      omega
    · have hrow' : alGet? t u = some outs := by
        simp only [alGet?, if_neg hp] at hrow
        exact hrow
      rw [ih hcons.2 hrow']
      have hiff : p.1 ∈ acc ↔ p.1 ∈ acc ++ [u] := by
        simp only [List.mem_append, List.mem_singleton]
        constructor
        · exact fun h => Or.inl h
        · rintro (h | h)
          · exact h
          · exact absurd h hp
      by_cases hm : p.1 ∈ acc
      · rw [if_pos hm, if_pos (hiff.mp hm)]
        omega
      · rw [if_neg hm, if_neg (fun hc => hm (hiff.mpr hc))]
        omega

theorem count_le_predsOut {g : RevGraph} (hND : (alKeys g).Nodup) {u : String}
    {outs : List String} (hrow : alGet? g u = some outs) {acc : List String}
    (hacc : u ∉ acc) (v : String) : outs.count v ≤ predsOut g acc v := by
  rw [predsOut_append hND hrow hacc v]
  omega

/-! ### Characterisation of the filtered graph built by `topological_sort` -/

theorem alGet?_append_of_some {α : Type} {l₁ : List (String × α)} {k : String}
    {v : α} (l₂ : List (String × α)) (h : alGet? l₁ k = some v) :
    alGet? (l₁ ++ l₂) k = some v := by
  induction l₁ with
  | nil => simp [alGet?] at h
  | cons p t ih =>
    by_cases hp : p.1 = k
    · simp only [alGet?, if_pos hp] at h ⊢
      exact h
    · simp only [alGet?, if_neg hp] at h ⊢
      exact ih h

theorem alGet?_append_of_none {α : Type} {l₁ : List (String × α)} {k : String}
    (l₂ : List (String × α)) (h : alGet? l₁ k = none) :
    alGet? (l₁ ++ l₂) k = alGet? l₂ k := by
  induction l₁ with
  | nil => rfl
  | cons p t ih =>
    by_cases hp : p.1 = k
    · simp [alGet?, hp] at h
    · simp only [alGet?, if_neg hp] at h ⊢
      exact ih h

theorem edgeG_alSetd (g : RevGraph) (k u v : String) :
    EdgeG (alSetd g k) u v ↔ EdgeG g u v := by
  rw [alSetd]
  by_cases h : (alGet? g k).isSome
  · rw [if_pos h]
  · rw [if_neg h]
    rcases hu : alGet? g u with _ | outs
    · rw [EdgeG, EdgeG]
      simp only [alGet?_append_of_none _ hu, hu]
      constructor
      · rintro ⟨outs, hup, hv⟩
        simp only [alGet?] at hup
        by_cases hku : k = u
        · rw [if_pos hku] at hup
          obtain rfl := Option.some.inj hup
          simp at hv
        · rw [if_neg hku] at hup
          simp [alGet?] at hup
      · rintro ⟨outs, hup, _⟩
        exact Option.noConfusion hup
    · rw [EdgeG, EdgeG]
      simp [alGet?_append_of_some _ hu, hu]

theorem alKeys_alSetd (g : RevGraph) (k : String) :
    alKeys (alSetd g k) = if k ∈ alKeys g then alKeys g else alKeys g ++ [k] := by
  rw [alSetd]
  by_cases h : k ∈ alKeys g
  · rw [if_pos ((alGet?_isSome g k).mpr h), if_pos h]
  · rw [if_neg (fun hc => h ((alGet?_isSome g k).mp hc)), if_neg h, alKeys_append]
    rfl

theorem nodup_alSetd {g : RevGraph} (k : String) (h : (alKeys g).Nodup) :
    (alKeys (alSetd g k)).Nodup := by
  rw [alKeys_alSetd]
  by_cases hm : k ∈ alKeys g
  · simpa [hm]
  · simpa [hm] using List.Nodup.append h (List.nodup_singleton k)
      (by intro a ha hb; simp at hb; subst hb; exact hm ha)

theorem edgeG_alSet_append (g : RevGraph) (k node u v : String) :
    EdgeG (alSet g k (alGetD g k [] ++ [node])) u v ↔
      EdgeG g u v ∨ (u = k ∧ v = node) := by
  rw [EdgeG]
  by_cases hu : u = k
  · subst hu
    simp only [alGet?_alSet, if_pos rfl]
    constructor
    · rintro ⟨outs, houts, hv⟩
      obtain rfl := Option.some.inj houts
      rcases List.mem_append.mp hv with hv | hv
      · exact Or.inl ((edgeG_iff_mem_getD g u v).mpr hv)
      · simp at hv
        exact Or.inr ⟨trivial, hv⟩
    · rintro (he | ⟨-, rfl⟩)
      · exact ⟨_, rfl, List.mem_append.mpr (Or.inl ((edgeG_iff_mem_getD g u v).mp he))⟩
      · exact ⟨_, rfl, List.mem_append.mpr (Or.inr (List.mem_singleton_self v))⟩
  · simp only [alGet?_alSet, if_neg hu]
    rw [← EdgeG]
    simp [hu]

/-- The inner dependency loop of `buildRowT`, as a named function for the
proofs below (definitionally equal to the fold inside `buildRowT`). -/
def depsFold (st : PlannerState) (node : String) (deps : List String)
    (g : RevGraph) : RevGraph :=
  deps.foldl (fun g dependent =>
    if undoneB st dependent then
      alSet g dependent (alGetD g dependent [] ++ [node])
    else g) g

theorem buildRowT_eq (st : PlannerState) (g : RevGraph) (node : String)
    (deps : List String) :
    buildRowT st g node deps =
      if undoneB st node then depsFold st node deps (alSetd g node) else g := rfl

theorem depsFold_spec (st : PlannerState) (node : String) :
    ∀ (deps : List String) (g : RevGraph), (alKeys g).Nodup →
      (alKeys (depsFold st node deps g)).Nodup ∧
      (∀ v, v ∈ alKeys (depsFold st node deps g) ↔
        v ∈ alKeys g ∨ (v ∈ deps ∧ undoneB st v = true)) ∧
      (∀ u v, EdgeG (depsFold st node deps g) u v ↔
        EdgeG g u v ∨ (v = node ∧ u ∈ deps ∧ undoneB st u = true)) := by
  intro deps
  induction deps with
  | nil =>
    intro g hg
    refine ⟨hg, ?_, ?_⟩
    · intro v
      simp [depsFold]
    · intro u v
      simp [depsFold]
  | cons d ds ih =>
    intro g hg
    have hstep : depsFold st node (d :: ds) g =
        depsFold st node ds
          (if undoneB st d then alSet g d (alGetD g d [] ++ [node]) else g) := by
      rw [depsFold, List.foldl_cons]
      rfl
    by_cases hd : undoneB st d = true
    · have hg1 : (alKeys (alSet g d (alGetD g d [] ++ [node]))).Nodup :=
        alKeys_nodup_alSet _ _ _ hg
      obtain ⟨ha, hb, hc⟩ := ih (alSet g d (alGetD g d [] ++ [node])) hg1
      rw [hstep, if_pos hd]
      refine ⟨ha, ?_, ?_⟩
      · intro v
        rw [hb v]
        have hkeys : v ∈ alKeys (alSet g d (alGetD g d [] ++ [node])) ↔
            v ∈ alKeys g ∨ v = d := by
          rw [alKeys_alSet]
          by_cases hm : d ∈ alKeys g
          · rw [if_pos hm]
            constructor
            · exact fun h => Or.inl h
            · rintro (h | rfl)
              · exact h
              · exact hm
          · rw [if_neg hm]
            simp [List.mem_append]
        rw [hkeys]
        constructor
        · rintro ((h | rfl) | ⟨h1, h2⟩)
          · exact Or.inl h
          · exact Or.inr ⟨List.mem_cons_self _ _, hd⟩
          · exact Or.inr ⟨List.mem_cons_of_mem _ h1, h2⟩
        · rintro (h | ⟨h1, h2⟩)
          · exact Or.inl (Or.inl h)
          · rcases List.mem_cons.mp h1 with rfl | h1
            · exact Or.inl (Or.inr rfl)
            · exact Or.inr ⟨h1, h2⟩
      · intro u v
        rw [hc u v, edgeG_alSet_append]
        constructor
        · rintro ((h | ⟨rfl, rfl⟩) | ⟨rfl, h1, h2⟩)
          · exact Or.inl h
          · exact Or.inr ⟨rfl, List.mem_cons_self _ _, hd⟩
          · exact Or.inr ⟨rfl, List.mem_cons_of_mem _ h1, h2⟩
        · rintro (h | ⟨rfl, h1, h2⟩)
          · exact Or.inl (Or.inl h)
          · rcases List.mem_cons.mp h1 with rfl | h1
            · exact Or.inl (Or.inr ⟨rfl, rfl⟩)
            · exact Or.inr ⟨rfl, h1, h2⟩
    · obtain ⟨ha, hb, hc⟩ := ih g hg
      rw [hstep, if_neg hd]
      refine ⟨ha, ?_, ?_⟩
      · intro v
        rw [hb v]
        constructor
        · rintro (h | ⟨h1, h2⟩)
          · exact Or.inl h
          · exact Or.inr ⟨List.mem_cons_of_mem _ h1, h2⟩
        · rintro (h | ⟨h1, h2⟩)
          · exact Or.inl h
          · rcases List.mem_cons.mp h1 with rfl | h1
            · exact absurd h2 hd
            · exact Or.inr ⟨h1, h2⟩
      · intro u v
        rw [hc u v]
        constructor
        · rintro (h | ⟨rfl, h1, h2⟩)
          · exact Or.inl h
          · exact Or.inr ⟨rfl, List.mem_cons_of_mem _ h1, h2⟩
        · rintro (h | ⟨rfl, h1, h2⟩)
          · exact Or.inl h
          · rcases List.mem_cons.mp h1 with rfl | h1
            · exact absurd h2 hd
            · exact Or.inr ⟨rfl, h1, h2⟩

/-- The outer loop of the graph construction, as a named function. -/
def rowsFold (st : PlannerState) (rows : List (String × List String))
    (g : RevGraph) : RevGraph :=
  rows.foldl (fun g p => buildRowT st g p.1 p.2) g

theorem buildGraphT_eq (st : PlannerState) :
    buildGraphT st = rowsFold st st.action_graph [] := rfl

theorem buildRowT_spec (st : PlannerState) (g : RevGraph) (node : String)
    (deps : List String) (hg : (alKeys g).Nodup) :
    (alKeys (buildRowT st g node deps)).Nodup ∧
    (∀ v, v ∈ alKeys (buildRowT st g node deps) ↔
      v ∈ alKeys g ∨ (undoneB st node = true ∧ (v = node ∨ (v ∈ deps ∧ undoneB st v = true)))) ∧
    (∀ u v, EdgeG (buildRowT st g node deps) u v ↔
      EdgeG g u v ∨ (undoneB st node = true ∧ v = node ∧ u ∈ deps ∧ undoneB st u = true)) := by
  rw [buildRowT_eq]
  by_cases hn : undoneB st node = true
  · rw [if_pos hn]
    have hg0 : (alKeys (alSetd g node)).Nodup := nodup_alSetd node hg
    obtain ⟨ha, hb, hc⟩ := depsFold_spec st node deps (alSetd g node) hg0
    have hkeys0 : ∀ v, v ∈ alKeys (alSetd g node) ↔ v ∈ alKeys g ∨ v = node := by
      intro v
      rw [alKeys_alSetd]
      by_cases hm : node ∈ alKeys g
      · rw [if_pos hm]
        constructor
        · exact fun h => Or.inl h
        · rintro (h | rfl)
          · exact h
          · exact hm
      · rw [if_neg hm]
        simp [List.mem_append]
    refine ⟨ha, ?_, ?_⟩
    · intro v
      rw [hb v, hkeys0 v]
      constructor
      · rintro ((h | rfl) | ⟨h1, h2⟩)
        · exact Or.inl h
        · exact Or.inr ⟨hn, Or.inl rfl⟩
        · exact Or.inr ⟨hn, Or.inr ⟨h1, h2⟩⟩
      · rintro (h | ⟨-, rfl | ⟨h1, h2⟩⟩)
        · exact Or.inl (Or.inl h)
        · exact Or.inl (Or.inr rfl)
        · exact Or.inr ⟨h1, h2⟩
    · intro u v
      rw [hc u v, edgeG_alSetd]
      constructor
      · rintro (h | ⟨rfl, h1, h2⟩)
        · exact Or.inl h
        · exact Or.inr ⟨hn, rfl, h1, h2⟩
      · rintro (h | ⟨-, rfl, h1, h2⟩)
        · exact Or.inl h
        · exact Or.inr ⟨rfl, h1, h2⟩
  · rw [if_neg hn]
    refine ⟨hg, ?_, ?_⟩
    · intro v
      constructor
      · exact fun h => Or.inl h
      · rintro (h | ⟨h1, -⟩)
        · exact h
        · exact absurd h1 hn
    · intro u v
      constructor
      · exact fun h => Or.inl h
      · rintro (h | ⟨h1, -⟩)
        · exact h
        · exact absurd h1 hn

theorem rowsFold_spec (st : PlannerState) :
    ∀ (rows : List (String × List String)) (g : RevGraph), (alKeys g).Nodup →
      (alKeys (rowsFold st rows g)).Nodup ∧
      (∀ v, v ∈ alKeys (rowsFold st rows g) ↔ v ∈ alKeys g ∨
        ∃ p, p ∈ rows ∧ undoneB st p.1 = true ∧
          (v = p.1 ∨ (v ∈ p.2 ∧ undoneB st v = true))) ∧
      (∀ u v, EdgeG (rowsFold st rows g) u v ↔ EdgeG g u v ∨
        ∃ p, p ∈ rows ∧ undoneB st p.1 = true ∧ v = p.1 ∧ u ∈ p.2 ∧
          undoneB st u = true) := by
  intro rows
  induction rows with
  | nil =>
    intro g hg
    refine ⟨hg, ?_, ?_⟩
    · intro v
      simp [rowsFold]
    · intro u v
      simp [rowsFold]
  | cons r rs ih =>
    intro g hg
    have hstep : rowsFold st (r :: rs) g = rowsFold st rs (buildRowT st g r.1 r.2) := by
      rw [rowsFold, List.foldl_cons]
      rfl
    obtain ⟨h1, h2, h3⟩ := buildRowT_spec st g r.1 r.2 hg
    obtain ⟨ha, hb, hc⟩ := ih (buildRowT st g r.1 r.2) h1
    rw [hstep]
    refine ⟨ha, ?_, ?_⟩
    · intro v
      rw [hb v, h2 v]
      constructor
      · rintro ((h | ⟨hu, hv⟩) | ⟨p, hp, hps⟩)
        · exact Or.inl h
        · exact Or.inr ⟨r, List.mem_cons_self _ _, hu, hv⟩
        · exact Or.inr ⟨p, List.mem_cons_of_mem _ hp, hps⟩
      · rintro (h | ⟨p, hp, hps⟩)
        · exact Or.inl (Or.inl h)
        · rcases List.mem_cons.mp hp with rfl | hp
          · exact Or.inl (Or.inr hps)
          · exact Or.inr ⟨p, hp, hps⟩
    · intro u v
      rw [hc u v, h3 u v]
      constructor
      · rintro ((h | ⟨hu, hv⟩) | ⟨p, hp, hps⟩)
        · exact Or.inl h
        · exact Or.inr ⟨r, List.mem_cons_self _ _, hu, hv⟩
        · exact Or.inr ⟨p, List.mem_cons_of_mem _ hp, hps⟩
      · rintro (h | ⟨p, hp, hps⟩)
        · exact Or.inl (Or.inl h)
        · rcases List.mem_cons.mp hp with rfl | hp
          · exact Or.inl (Or.inr hps)
          · exact Or.inr ⟨p, hp, hps⟩

/-- The nodes that `topological_sort` actually schedules: not-yet-executed
nodes of `self.action_graph`, together with the not-yet-executed dependencies
of such nodes. -/
def FilteredNode (st : PlannerState) (v : String) : Prop :=
  ∃ p, p ∈ st.action_graph ∧ undoneB st p.1 = true ∧
    (v = p.1 ∨ (v ∈ p.2 ∧ undoneB st v = true))

/-- A dependency edge of the filtered graph, read off the planner state:
`u` is a not-yet-executed dependency of the not-yet-executed task `v`. -/
def EdgeF (st : PlannerState) (u v : String) : Prop :=
  ∃ p, p ∈ st.action_graph ∧ undoneB st p.1 = true ∧ v = p.1 ∧ u ∈ p.2 ∧
    undoneB st u = true

theorem buildGraphT_nodup (st : PlannerState) : (alKeys (buildGraphT st)).Nodup := by
  rw [buildGraphT_eq]
  exact (rowsFold_spec st st.action_graph [] (by simp [alKeys])).1

theorem buildGraphT_mem (st : PlannerState) (v : String) :
    v ∈ alKeys (buildGraphT st) ↔ FilteredNode st v := by
  rw [buildGraphT_eq]
  rw [(rowsFold_spec st st.action_graph [] (by simp [alKeys])).2.1 v]
  simp [alKeys, FilteredNode]

theorem buildGraphT_edge (st : PlannerState) (u v : String) :
    EdgeG (buildGraphT st) u v ↔ EdgeF st u v := by
  rw [buildGraphT_eq]
  rw [(rowsFold_spec st st.action_graph [] (by simp [alKeys])).2.2 u v]
  have hno : ¬ EdgeG [] u v := by
    rintro ⟨outs, h, -⟩
    simp [alGet?] at h
  simp [hno, EdgeF]

/-- The well-formedness condition the source relies on (spec §3: every
dependency name referenced in the graph has a corresponding `ActionNode`). -/
def GraphClosed (st : PlannerState) : Prop :=
  ∀ p ∈ st.action_graph, (alGet? st.action_node p.1).isSome = true ∧
    ∀ d ∈ p.2, (alGet? st.action_node d).isSome = true

theorem buildRow_ok (st : PlannerState) (g : RevGraph) (node : String)
    (deps : List String) (h1 : (alGet? st.action_node node).isSome = true)
    (h2 : ∀ d ∈ deps, (alGet? st.action_node d).isSome = true) :
    buildRow st g node deps = .ok (buildRowT st g node deps) := by
  obtain ⟨nd, hnd⟩ := Option.isSome_iff_exists.mp h1
  have hun : undoneB st node = !nd.status := by rw [undoneB, hnd]
  rw [buildRow, buildRowT, hun]
  simp only [hnd]
  rcases hs : nd.status with _ | _
  · simp only [hs, Bool.not_false, if_true]
    generalize alSetd g node = g0
    induction deps generalizing g0 with
    | nil => rfl
    | cons d ds ih =>
      obtain ⟨dd, hdd⟩ := Option.isSome_iff_exists.mp (h2 d (List.mem_cons_self d ds))
      have hund : undoneB st d = !dd.status := by rw [undoneB, hdd]
      rw [List.foldlM_cons, List.foldl_cons, hund]
      simp only [hdd]
      rcases hds : dd.status with _ | _
      · simp only [hds, Bool.not_false, if_true]
        have := ih (fun d hd => h2 d (List.mem_cons_of_mem _ hd))
          (alSet g0 d (alGetD g0 d [] ++ [node]))
        simpa using this
      · simp only [hds, Bool.not_true, if_false]
        have := ih (fun d hd => h2 d (List.mem_cons_of_mem _ hd)) g0
        simpa using this
  · simp [hs]

theorem buildGraph_ok (st : PlannerState) (hcl : GraphClosed st) :
    buildGraph st = .ok (buildGraphT st) := by
  rw [buildGraph, buildGraphT]
  have : ∀ (rows : List (String × List String)) (g : RevGraph),
      (∀ p ∈ rows, (alGet? st.action_node p.1).isSome = true ∧
        ∀ d ∈ p.2, (alGet? st.action_node d).isSome = true) →
      rows.foldlM (fun g p => buildRow st g p.1 p.2) g =
        .ok (rows.foldl (fun g p => buildRowT st g p.1 p.2) g) := by
    intro rows
    induction rows with
    | nil => intro g _; rfl
    | cons r rs ih =>
      intro g h
      rw [List.foldlM_cons, List.foldl_cons,
        buildRow_ok st g r.1 r.2 (h r (List.mem_cons_self r rs)).1
          (h r (List.mem_cons_self r rs)).2]
      have := ih (buildRowT st g r.1 r.2) (fun p hp => h p (List.mem_cons_of_mem _ hp))
      simpa using this
  exact this st.action_graph [] hcl

/-! ### The in-degree map -/

theorem alGetD_alSet {α : Type} (l : List (String × α)) (k k' : String) (v d : α) :
    alGetD (alSet l k v) k' d = if k' = k then v else alGetD l k' d := by
  rw [alGetD, alGet?_alSet]
  by_cases h : k' = k
  · rw [if_pos h, if_pos h]
    rfl
  · rw [if_neg h, if_neg h]
    rfl

theorem incrFold_getD (L : List String) :
    ∀ (d : List (String × Int)) (v : String),
      alGetD (L.foldl (fun d w => alSet d w (alGetD d w 0 + 1)) d) v 0 =
        alGetD d v 0 + L.count v := by
  induction L with
  | nil => intro d v; simp
  | cons w ws ih =>
    intro d v
    rw [List.foldl_cons, ih, alGetD_alSet]
    by_cases h : v = w
    · rw [if_pos h, List.count_cons]
      subst h
      simp
      omega
    · rw [if_neg h, List.count_cons]
      have : ¬ w = v := fun hc => h hc.symm
      simp [this]

theorem incrFold_keys (L : List String) :
    ∀ (d : List (String × Int)), (∀ w ∈ L, w ∈ alKeys d) →
      alKeys (L.foldl (fun d w => alSet d w (alGetD d w 0 + 1)) d) = alKeys d := by
  induction L with
  | nil => intro d _; rfl
  | cons w ws ih =>
    intro d h
    rw [List.foldl_cons, ih, alKeys_alSet, if_pos (h w (List.mem_cons_self w ws))]
    intro x hx
    rw [alKeys_alSet, if_pos (h w (List.mem_cons_self w ws))]
    exact h x (List.mem_cons_of_mem _ hx)

theorem alGetD_map_zero (g : RevGraph) (v : String) :
    alGetD (g.map (fun p => (p.1, (0 : Int)))) v 0 = 0 := by
  induction g with
  | nil => rfl
  | cons p t ih =>
    rw [List.map_cons, alGetD]
    by_cases h : p.1 = v
    · simp [alGet?, h]
    · simp only [alGet?, if_neg h]
      exact ih

theorem alKeys_map_zero (g : RevGraph) :
    alKeys (g.map (fun p => (p.1, (0 : Int)))) = alKeys g := by
  simp [alKeys, List.map_map]

/-- Row targets lie inside the key set: the property `buildGraphT` guarantees
because `setdefault(node, [])` precedes every `graph[dependent].append(node)`. -/
def RowTargets (g : RevGraph) : Prop :=
  ∀ p ∈ g, ∀ v ∈ p.2, v ∈ alKeys g

theorem rowTargets_buildGraphT (st : PlannerState) : RowTargets (buildGraphT st) := by
  intro p hp v hv
  have he : EdgeG (buildGraphT st) p.1 v :=
    ⟨p.2, alGet?_of_mem_nodup (buildGraphT_nodup st) hp, hv⟩
  have hf := (buildGraphT_edge st p.1 v).mp he
  obtain ⟨q, hq, hq1, rfl, _, hqv⟩ := hf
  rw [buildGraphT_mem]
  exact ⟨q, hq, hq1, Or.inl rfl⟩

theorem predsOut_nil (g : RevGraph) (v : String) :
    predsOut g [] v = ((g.map (fun p => p.2.count v)).sum) := by
  rw [predsOut]
  congr 1
  congr 1
  apply List.filter_eq_self.mpr
  intro p _
  simp

theorem initInDegree_getD (g : RevGraph) (v : String) :
    alGetD (initInDegree g) v 0 = ((predsOut g [] v : Nat) : Int) := by
  rw [initInDegree, predsOut_nil]
  have main : ∀ (rows : List (String × List String)) (d : List (String × Int)),
      alGetD (rows.foldl (fun d p =>
        p.2.foldl (fun d v => alSet d v (alGetD d v 0 + 1)) d) d) v 0 =
      alGetD d v 0 + ((rows.map (fun p => p.2.count v)).sum : Int) := by
    intro rows
    induction rows with
    | nil => intro d; simp
    | cons r rs ih =>
      intro d
      rw [List.foldl_cons, ih, incrFold_getD, List.map_cons, List.sum_cons]
      ring
  rw [main, alGetD_map_zero, Nat.cast_list_sum, List.map_map]
  simp only [Function.comp_def]
  ring

theorem initInDegree_keys (g : RevGraph) (htgt : RowTargets g) :
    alKeys (initInDegree g) = alKeys g := by
  rw [initInDegree]
  have main : ∀ (rows : List (String × List String)) (d : List (String × Int)),
      alKeys d = alKeys g → (∀ p ∈ rows, p ∈ g) →
      alKeys (rows.foldl (fun d p =>
        p.2.foldl (fun d v => alSet d v (alGetD d v 0 + 1)) d) d) = alKeys g := by
    intro rows
    induction rows with
    | nil => intro d hd _; exact hd
    | cons r rs ih =>
      intro d hd hrows
      rw [List.foldl_cons]
      apply ih
      · rw [incrFold_keys]
        · exact hd
        · intro w hw
          rw [hd]
          exact htgt r (hrows r (List.mem_cons_self r rs)) w hw
      · intro p hp
        exact hrows p (List.mem_cons_of_mem _ hp)
  exact main g (g.map (fun p => (p.1, (0 : Int)))) (alKeys_map_zero g) (fun p hp => hp)

theorem kahnStep_cons (w : String) (ws : List String)
    (dq : List (String × Int) × List String) :
    kahnStep (w :: ws) dq =
      kahnStep ws (if alGetD dq.1 w 0 - 1 = 0 then
          (alSet dq.1 w (alGetD dq.1 w 0 - 1), dq.2 ++ [w])
        else (alSet dq.1 w (alGetD dq.1 w 0 - 1), dq.2)) := by
  rw [kahnStep, List.foldl_cons]
  rfl

theorem kahnStep_append (outs : List String) :
    ∀ (d : List (String × Int)) (q : List String),
      kahnStep outs (d, q) =
        ((kahnStep outs (d, [])).1, q ++ (kahnStep outs (d, [])).2) := by
  induction outs with
  | nil =>
    intro d q
    simp [kahnStep]
  | cons w ws ih =>
    intro d q
    rw [kahnStep_cons, kahnStep_cons]
    by_cases hv : alGetD d w 0 - 1 = 0
    · simp only [if_pos hv]
      rw [ih (alSet d w (alGetD d w 0 - 1)) (q ++ [w]),
        ih (alSet d w (alGetD d w 0 - 1)) ([] ++ [w])]
      simp
    · simp only [if_neg hv]
      rw [ih (alSet d w (alGetD d w 0 - 1)) q,
        ih (alSet d w (alGetD d w 0 - 1)) []]

theorem kahnStep_deg (outs : List String) :
    ∀ (d : List (String × Int)) (v : String),
      alGetD (kahnStep outs (d, [])).1 v 0 = alGetD d v 0 - outs.count v := by
  induction outs with
  | nil =>
    intro d v
    simp [kahnStep]
  | cons w ws ih =>
    intro d v
    rw [kahnStep_cons]
    have hfst : ∀ (q : List String),
        (kahnStep ws (alSet d w (alGetD d w 0 - 1), q)).1 =
          (kahnStep ws (alSet d w (alGetD d w 0 - 1), [])).1 := by
      intro q
      rw [kahnStep_append]
    have hmain : alGetD (kahnStep ws (alSet d w (alGetD d w 0 - 1), [])).1 v 0 =
        alGetD d v 0 - (w :: ws).count v := by
      rw [ih, alGetD_alSet]
      by_cases hw : v = w
      · subst hw
        rw [if_pos rfl, List.count_cons]
        simp only [beq_self_eq_true, if_true]
        push_cast
        ring
      · rw [if_neg hw, List.count_cons]
        have hne : (w == v) = false := by
          simp only [beq_eq_false_iff_ne, ne_eq]
          exact fun hc => hw hc.symm
        rw [hne]
        simp
    by_cases hv : alGetD d w 0 - 1 = 0
    · rw [if_pos hv, hfst, hmain]
    · rw [if_neg hv, hfst, hmain]

theorem kahnStep_keys (outs : List String) :
    ∀ (d : List (String × Int)), (∀ w ∈ outs, w ∈ alKeys d) →
      alKeys (kahnStep outs (d, [])).1 = alKeys d := by
  induction outs with
  | nil =>
    intro d _
    simp [kahnStep]
  | cons w ws ih =>
    intro d h
    have hkeys1 : alKeys (alSet d w (alGetD d w 0 - 1)) = alKeys d := by
      rw [alKeys_alSet, if_pos (h w (List.mem_cons_self w ws))]
    have hrec : ∀ w' ∈ ws, w' ∈ alKeys (alSet d w (alGetD d w 0 - 1)) := by
      intro w' hw'
      rw [hkeys1]
      exact h w' (List.mem_cons_of_mem _ hw')
    have hfst : ∀ (q : List String),
        (kahnStep ws (alSet d w (alGetD d w 0 - 1), q)).1 =
          (kahnStep ws (alSet d w (alGetD d w 0 - 1), [])).1 := by
      intro q
      rw [kahnStep_append]
    rw [kahnStep_cons]
    by_cases hv : alGetD d w 0 - 1 = 0
    · rw [if_pos hv, hfst, ih _ hrec, hkeys1]
    · rw [if_neg hv, hfst, ih _ hrec, hkeys1]

theorem kahnStep_newq (outs : List String) :
    ∀ (d : List (String × Int)),
      (∀ v, (outs.count v : Int) ≤ alGetD d v 0) →
      (∀ v, v ∈ (kahnStep outs (d, [])).2 ↔
        (0 < outs.count v ∧ alGetD d v 0 = outs.count v)) ∧
      (kahnStep outs (d, [])).2.Nodup := by
  induction outs with
  | nil =>
    intro d _
    constructor
    · intro v
      simp [kahnStep]
    · simp [kahnStep]
  | cons w ws ih =>
    intro d hcnt
    have hcnt' : ∀ v, ((ws.count v : Nat) : Int) ≤ alGetD (alSet d w (alGetD d w 0 - 1)) v 0 := by
      intro v
      rw [alGetD_alSet]
      by_cases hw : v = w
      · subst hw
        have := hcnt v
        rw [List.count_cons] at this
        simp at this
        rw [if_pos rfl]
        omega
      · rw [if_neg hw]
        have := hcnt v
        rw [List.count_cons] at this
        have hne : ¬ w = v := fun hc => hw hc.symm
        simp [hne] at this
        exact this
    obtain ⟨ihm, ihnd⟩ := ih (alSet d w (alGetD d w 0 - 1)) hcnt'
    have hsnd : ∀ (q : List String),
        (kahnStep ws (alSet d w (alGetD d w 0 - 1), q)).2 =
          q ++ (kahnStep ws (alSet d w (alGetD d w 0 - 1), [])).2 := by
      intro q
      rw [kahnStep_append]
    have hgw : ∀ v, alGetD (alSet d w (alGetD d w 0 - 1)) v 0 =
        if v = w then alGetD d w 0 - 1 else alGetD d v 0 := by
      intro v
      rw [alGetD_alSet]
    rw [kahnStep_cons]
    by_cases hv : alGetD d w 0 - 1 = 0
    · rw [if_pos hv]
      constructor
      · intro v
        rw [hsnd, List.mem_append]
        by_cases hw : v = w
        · subst hw
          have hcw := hcnt v
          rw [List.count_cons] at hcw
          simp at hcw
          have hws : ws.count v = 0 := by omega
          constructor
          · intro _
            rw [List.count_cons]
            simp
            omega
          · intro _
            simp
        · have hne : ¬ w = v := fun hc => hw hc.symm
          rw [ihm v, hgw v, if_neg hw, List.count_cons]
          simp [hne, hw]
      · rw [hsnd]
        have hwn : w ∉ (kahnStep ws (alSet d w (alGetD d w 0 - 1), [])).2 := by
          rw [ihm w, hgw w, if_pos rfl]
          intro ⟨h1, h2⟩
          omega
        simp only [List.nil_append, List.singleton_append, List.nodup_cons]
        exact ⟨hwn, ihnd⟩
    · rw [if_neg hv]
      constructor
      · intro v
        rw [hsnd, List.nil_append, ihm v, hgw v]
        by_cases hw : v = w
        · subst hw
          rw [if_pos rfl, List.count_cons]
          simp only [beq_self_eq_true, if_true]
          constructor
          · rintro ⟨h1, h2⟩
            refine ⟨by omega, by omega⟩
          · rintro ⟨h1, h2⟩
            refine ⟨by omega, by omega⟩
        · have hne : (w == v) = false := by
            simp only [beq_eq_false_iff_ne, ne_eq]
            exact fun hc => hw hc.symm
          rw [if_neg hw, List.count_cons, hne]
          simp
      · rw [hsnd, List.nil_append]
        exact ihnd

/-! ### The Kahn loop invariant -/

/-- Invariant of the `while queue:` loop.  `acc` is the part of
`self.execute_list` already produced (the popped nodes), `q` the current
queue, `d` the live `in_degree` map. -/
structure KahnInv (g : RevGraph) (d : List (String × Int)) (q acc : List String) : Prop where
  keys_eq : alKeys d = alKeys g
  deg : ∀ v, alGetD d v 0 = ((predsOut g acc v : Nat) : Int)
  nodup : (acc ++ q).Nodup
  mem_iff : ∀ v, v ∈ acc ++ q ↔ (v ∈ alKeys g ∧ predsOut g acc v = 0)
  no_back : acc.Pairwise (fun a b => ¬ EdgeG g b a)
  no_self : ∀ v ∈ acc, ¬ EdgeG g v v

theorem kahnInv_length_le {g : RevGraph} {d : List (String × Int)}
    {q acc : List String} (hinv : KahnInv g d q acc) :
    (acc ++ q).length ≤ (alKeys g).length := by
  have hsub : (acc ++ q) ⊆ alKeys g := fun v hv => ((hinv.mem_iff v).mp hv).1
  exact (hinv.nodup.subperm hsub).length_le

theorem kahnInv_step (g : RevGraph) (hND : (alKeys g).Nodup) (htgt : RowTargets g)
    (d : List (String × Int)) (current : String) (rest acc : List String)
    (hinv : KahnInv g d (current :: rest) acc) :
    KahnInv g (kahnStep (alGetD g current []) (d, rest)).1
      (kahnStep (alGetD g current []) (d, rest)).2 (acc ++ [current]) := by
  have hcur_mem : current ∈ acc ++ current :: rest := by simp
  have hci := (hinv.mem_iff current).mp hcur_mem
  obtain ⟨outs, hrow⟩ := Option.isSome_iff_exists.mp ((alGet?_isSome g current).mpr hci.1)
  have hgetd : alGetD g current [] = outs := by rw [alGetD, hrow]; rfl
  have hcur_nacc : current ∉ acc := by
    intro hc
    have hdis := List.disjoint_of_nodup_append hinv.nodup
    exact hdis hc (List.mem_cons_self _ _)
  have happ : ∀ v, predsOut g acc v = predsOut g (acc ++ [current]) v + outs.count v :=
    predsOut_append hND hrow hcur_nacc
  have htgt_outs : ∀ w ∈ outs, w ∈ alKeys g := by
    intro w hw
    exact htgt (current, outs) (mem_of_alGet? hrow) w hw
  have hcnt : ∀ v, (outs.count v : Int) ≤ alGetD d v 0 := by
    intro v
    rw [hinv.deg v]
    have := happ v
    have hle : outs.count v ≤ predsOut g acc v := by omega
    exact_mod_cast hle
  rw [hgetd, kahnStep_append]
  obtain ⟨hnqm, hnqnd⟩ := kahnStep_newq outs d hcnt
  have hdeg' : ∀ v, alGetD (kahnStep outs (d, [])).1 v 0 =
      ((predsOut g (acc ++ [current]) v : Nat) : Int) := by
    intro v
    rw [kahnStep_deg, hinv.deg v]
    have := happ v
    omega
  have hkeys' : alKeys (kahnStep outs (d, [])).1 = alKeys g := by
    rw [kahnStep_keys]
    · exact hinv.keys_eq
    · intro w hw
      rw [hinv.keys_eq]
      exact htgt_outs w hw
  have hnq_iff : ∀ v, v ∈ (kahnStep outs (d, [])).2 ↔
      (0 < outs.count v ∧ predsOut g (acc ++ [current]) v = 0) := by
    intro v
    rw [hnqm v, hinv.deg v]
    have := happ v
    constructor
    · rintro ⟨h1, h2⟩
      have : predsOut g acc v = outs.count v := by exact_mod_cast h2
      exact ⟨h1, by omega⟩
    · rintro ⟨h1, h2⟩
      refine ⟨h1, ?_⟩
      have : predsOut g acc v = outs.count v := by omega
      exact_mod_cast this
  have hold_mem : ∀ v, v ∈ acc ∨ v = current ∨ v ∈ rest ↔
      (v ∈ alKeys g ∧ predsOut g acc v = 0) := by
    intro v
    rw [← hinv.mem_iff v]
    simp
  refine ⟨hkeys', hdeg', ?_, ?_, ?_, ?_⟩
  · have heq : (acc ++ [current]) ++ (rest ++ (kahnStep outs (d, [])).2) =
        (acc ++ current :: rest) ++ (kahnStep outs (d, [])).2 := by
      simp
    rw [heq]
    refine List.nodup_append.mpr ⟨hinv.nodup, hnqnd, ?_⟩
    intro a ha hb
    have h1 := ((hinv.mem_iff a).mp ha).2
    have h2 := ((hnq_iff a).mp hb)
    have := happ a
    omega
  · intro v
    have hlhs : v ∈ (acc ++ [current]) ++ (rest ++ (kahnStep outs (d, [])).2) ↔
        ((v ∈ acc ∨ v = current ∨ v ∈ rest) ∨ v ∈ (kahnStep outs (d, [])).2) := by
      simp
      tauto
    rw [hlhs]
    constructor
    · rintro (hold | hnew)
      · have := (hold_mem v).mp hold
        have h2 := happ v
        exact ⟨this.1, by omega⟩
      · have := (hnq_iff v).mp hnew
        refine ⟨?_, this.2⟩
        exact htgt_outs v (List.count_pos_iff.mp this.1)
    · rintro ⟨hk, hz⟩
      have h2 := happ v
      by_cases hc : outs.count v = 0
      · left
        exact (hold_mem v).mpr ⟨hk, by omega⟩
      · right
        exact (hnq_iff v).mpr ⟨by omega, hz⟩
  · refine List.pairwise_append.mpr ⟨hinv.no_back, List.pairwise_singleton _ _, ?_⟩
    intro a ha b hb
    have hbcur : b = current := by simpa using hb
    subst hbcur
    intro he
    have hz := ((hinv.mem_iff a).mp (by simp [ha])).2
    have := (predsOut_eq_zero_iff hND acc a).mp hz b he
    exact hcur_nacc this
  · intro v hv
    rcases List.mem_append.mp hv with hv | hv
    · exact hinv.no_self v hv
    · have hvc : v = current := by simpa using hv
      subst hvc
      intro he
      have := (predsOut_eq_zero_iff hND acc v).mp hci.2 v he
      exact hcur_nacc this

theorem kahnLoop_run (g : RevGraph) (hND : (alKeys g).Nodup) (htgt : RowTargets g) :
    ∀ (fuel : Nat) (d : List (String × Int)) (q acc : List String),
      KahnInv g d q acc → (alKeys g).length + 1 ≤ fuel + acc.length →
      KahnInv g (kahnLoop g fuel d q acc).1 [] (kahnLoop g fuel d q acc).2 := by
  intro fuel
  induction fuel with
  | zero =>
    intro d q acc hinv hfuel
    exfalso
    have h1 := kahnInv_length_le hinv
    rw [List.length_append] at h1
    omega
  | succ f ih =>
    intro d q acc hinv hfuel
    match q with
    | [] => exact hinv
    | current :: rest =>
      have hrun : kahnLoop g (f + 1) d (current :: rest) acc =
          kahnLoop g f (kahnStep (alGetD g current []) (d, rest)).1
            (kahnStep (alGetD g current []) (d, rest)).2 (acc ++ [current]) := by
        rw [kahnLoop]
      rw [hrun]
      apply ih
      · exact kahnInv_step g hND htgt d current rest acc hinv
      · rw [List.length_append]
        simp only [List.length_singleton]
        omega

/-! ### Initial state of the Kahn loop -/

theorem initQueue_mem (g : RevGraph) (hND : (alKeys g).Nodup) (htgt : RowTargets g)
    (v : String) :
    v ∈ (List.filter (fun p => decide (p.2 = 0)) (initInDegree g)).map Prod.fst ↔
      (v ∈ alKeys g ∧ predsOut g [] v = 0) := by
  have hkeys := initInDegree_keys g htgt
  have hndk : (alKeys (initInDegree g)).Nodup := by rw [hkeys]; exact hND
  constructor
  · intro hv
    rw [List.mem_map] at hv
    obtain ⟨p, hp, hfst⟩ := hv
    rw [List.mem_filter] at hp
    have hz : p.2 = 0 := by simpa using hp.2
    have hget : alGet? (initInDegree g) p.1 = some p.2 := by
      apply alGet?_of_mem_nodup hndk
      exact (Prod.mk.eta ▸ hp.1)
    have hgd : alGetD (initInDegree g) p.1 0 = 0 := by
      rw [alGetD, hget, hz]
      rfl
    rw [initInDegree_getD] at hgd
    subst hfst
    constructor
    · rw [← hkeys]
      exact List.mem_map_of_mem Prod.fst hp.1
    · exact_mod_cast hgd
  · rintro ⟨hk, hz⟩
    have hk' : v ∈ alKeys (initInDegree g) := by rw [hkeys]; exact hk
    obtain ⟨x, hx⟩ := Option.isSome_iff_exists.mp ((alGet?_isSome _ v).mpr hk')
    have hgd : alGetD (initInDegree g) v 0 = x := by rw [alGetD, hx]; rfl
    rw [initInDegree_getD, hz] at hgd
    have hx0 : x = 0 := by exact_mod_cast hgd.symm
    subst hx0
    rw [List.mem_map]
    refine ⟨(v, 0), ?_, rfl⟩
    rw [List.mem_filter]
    exact ⟨mem_of_alGet? hx, by simp⟩

theorem initQueue_nodup (g : RevGraph) (hND : (alKeys g).Nodup) (htgt : RowTargets g) :
    ((List.filter (fun p => decide (p.2 = 0)) (initInDegree g)).map Prod.fst).Nodup := by
  have hkeys := initInDegree_keys g htgt
  have hndk : (alKeys (initInDegree g)).Nodup := by rw [hkeys]; exact hND
  have hsub : List.Sublist
      ((List.filter (fun p => decide (p.2 = 0)) (initInDegree g)).map Prod.fst)
      ((initInDegree g).map Prod.fst) :=
    (List.filter_sublist _).map Prod.fst
  exact List.Nodup.sublist hsub hndk

theorem kahnInv_init (g : RevGraph) (hND : (alKeys g).Nodup) (htgt : RowTargets g) :
    KahnInv g (initInDegree g)
      ((List.filter (fun p => decide (p.2 = 0)) (initInDegree g)).map Prod.fst) [] := by
  refine ⟨initInDegree_keys g htgt, ?_, ?_, ?_, ?_, ?_⟩
  · intro v
    exact initInDegree_getD g v
  · rw [List.nil_append]
    exact initQueue_nodup g hND htgt
  · intro v
    rw [List.nil_append]
    exact initQueue_mem g hND htgt v
  · exact List.Pairwise.nil
  · intro v hv
    simp at hv

/-! ### The behaviour of `topological_sort` on well-formed states -/

theorem topological_sort_run (st : PlannerState) (hcl : GraphClosed st) :
    ∃ d' : List (String × Int),
      KahnInv (buildGraphT st) d' [] (topological_sort st).state.execute_list ∧
      (topological_sort st).err = none ∧
      (topological_sort st).state.action_node = st.action_node ∧
      (topological_sort st).state.action_graph = st.action_graph ∧
      ((topological_sort st).state.execute_list.length = (buildGraphT st).length →
        (topological_sort st).retMsg = none) ∧
      ((topological_sort st).state.execute_list.length ≠ (buildGraphT st).length →
        (topological_sort st).retMsg = some cycleMsg) := by
  have hND := buildGraphT_nodup st
  have htgt := rowTargets_buildGraphT st
  have hok : buildGraph { st with execute_list := [] } = .ok (buildGraphT st) :=
    buildGraph_ok { st with execute_list := [] } hcl
  have hinit := kahnInv_init (buildGraphT st) hND htgt
  have hrun := kahnLoop_run (buildGraphT st) hND htgt ((buildGraphT st).length + 1)
      (initInDegree (buildGraphT st))
      ((List.filter (fun p => decide (p.2 = 0)) (initInDegree (buildGraphT st))).map Prod.fst)
      [] hinit (by simp [alKeys])
  have hts : topological_sort st =
      if (kahnLoop (buildGraphT st) ((buildGraphT st).length + 1)
            (initInDegree (buildGraphT st))
            ((List.filter (fun p => decide (p.2 = 0))
              (initInDegree (buildGraphT st))).map Prod.fst) []).2.length =
          (buildGraphT st).length then
        (⟨{ st with execute_list :=
            (kahnLoop (buildGraphT st) ((buildGraphT st).length + 1)
              (initInDegree (buildGraphT st))
              ((List.filter (fun p => decide (p.2 = 0))
                (initInDegree (buildGraphT st))).map Prod.fst) []).2 },
          none, none⟩ : SortResult)
      else
        ⟨{ st with execute_list :=
            (kahnLoop (buildGraphT st) ((buildGraphT st).length + 1)
              (initInDegree (buildGraphT st))
              ((List.filter (fun p => decide (p.2 = 0))
                (initInDegree (buildGraphT st))).map Prod.fst) []).2 },
          some cycleMsg, none⟩ := by
    rw [topological_sort, hok]
  rw [hts]
  by_cases hlen : (kahnLoop (buildGraphT st) ((buildGraphT st).length + 1)
      (initInDegree (buildGraphT st))
      ((List.filter (fun p => decide (p.2 = 0))
        (initInDegree (buildGraphT st))).map Prod.fst) []).2.length =
      (buildGraphT st).length
  · rw [if_pos hlen]
    exact ⟨_, hrun, rfl, rfl, rfl, fun _ => rfl, fun hc => absurd hlen hc⟩
  · rw [if_neg hlen]
    exact ⟨_, hrun, rfl, rfl, rfl, fun hc => absurd hc hlen, fun _ => rfl⟩

/-! ### Order-theoretic helpers on lists -/

theorem two_mem_sublist_or {α : Type} {u v : α} {l : List α} (hu : u ∈ l) (hv : v ∈ l)
    (hne : u ≠ v) : List.Sublist [u, v] l ∨ List.Sublist [v, u] l := by
  induction l with
  | nil => simp at hu
  | cons a t ih =>
    by_cases hua : u = a
    · subst hua
      have hvt : v ∈ t := by
        rcases List.mem_cons.mp hv with h | h
        · exact absurd h.symm hne
        · exact h
      left
      exact List.Sublist.cons₂ u (List.singleton_sublist.mpr hvt)
    · by_cases hva : v = a
      · subst hva
        have hut : u ∈ t := by
          rcases List.mem_cons.mp hu with h | h
          · exact absurd h hua
          · exact h
        right
        exact List.Sublist.cons₂ v (List.singleton_sublist.mpr hut)
      · have hut : u ∈ t := by
          rcases List.mem_cons.mp hu with h | h
          · exact absurd h hua
          · exact h
        have hvt : v ∈ t := by
          rcases List.mem_cons.mp hv with h | h
          · exact absurd h hva
          · exact h
        rcases ih hut hvt with h | h
        · exact Or.inl (List.Sublist.cons a h)
        · exact Or.inr (List.Sublist.cons a h)

theorem pairwise_of_sublist_pair {α : Type} {R : α → α → Prop} {u v : α} {l : List α}
    (hsub : List.Sublist [u, v] l) (hp : l.Pairwise R) : R u v := by
  have h2 := hp.sublist hsub
  rcases List.pairwise_cons.mp h2 with ⟨h1, -⟩
  exact h1 v (List.mem_singleton_self v)

theorem indexOf_lt_of_sublist_pair {u v : String} :
    ∀ {l : List String}, List.Sublist [u, v] l → l.Nodup →
      l.indexOf u < l.indexOf v := by
  intro l
  induction l with
  | nil =>
    intro hsub
    simp at hsub
  | cons a t ih =>
    intro hsub hnd
    have hnd' := List.nodup_cons.mp hnd
    cases hsub with
    | cons _ h =>
      have hut : u ∈ t := (List.cons_subset.mp h.subset).1
      have hvt : v ∈ t := by
        have := h.subset
        exact this (by simp)
      have hau : a ≠ u := fun hc => hnd'.1 (hc ▸ hut)
      have hav : a ≠ v := fun hc => hnd'.1 (hc ▸ hvt)
      rw [List.indexOf_cons_ne t hau, List.indexOf_cons_ne t hav]
      have := ih h hnd'.2
      omega
    | cons₂ _ h =>
      have hvt : v ∈ t := by
        have := h.subset
        exact this (by simp)
      have huv : u ≠ v := fun hc => hnd'.1 (hc ▸ hvt)
      rw [List.indexOf_cons_self, List.indexOf_cons_ne t huv]
      omega

/-- The list of nodes the filtered graph schedules, read off the planner
state (deduplicated). -/
def filteredNodeList (st : PlannerState) : List String :=
  ((st.action_graph.filter (fun p => undoneB st p.1)).map Prod.fst ++
    (st.action_graph.filter (fun p => undoneB st p.1)).flatMap
      (fun p => p.2.filter (fun v => undoneB st v))).dedup

theorem filteredNodeList_nodup (st : PlannerState) : (filteredNodeList st).Nodup :=
  List.nodup_dedup _

theorem filteredNodeList_mem (st : PlannerState) (v : String) :
    v ∈ filteredNodeList st ↔ FilteredNode st v := by
  rw [filteredNodeList, List.mem_dedup, List.mem_append, List.mem_map, FilteredNode]
  constructor
  · rintro (⟨p, hp, hfst⟩ | hf)
    · rw [List.mem_filter] at hp
      exact ⟨p, hp.1, by simpa using hp.2, Or.inl hfst.symm⟩
    · rw [List.mem_flatMap] at hf
      obtain ⟨p, hp, hv⟩ := hf
      rw [List.mem_filter] at hp hv
      exact ⟨p, hp.1, by simpa using hp.2, Or.inr ⟨hv.1, by simpa using hv.2⟩⟩
  · rintro ⟨p, hp, hu, rfl | ⟨hv1, hv2⟩⟩
    · left
      exact ⟨p, List.mem_filter.mpr ⟨hp, by simpa using hu⟩, rfl⟩
    · right
      rw [List.mem_flatMap]
      exact ⟨p, List.mem_filter.mpr ⟨hp, by simpa using hu⟩,
        List.mem_filter.mpr ⟨hv1, by simpa using hv2⟩⟩

theorem filteredNodeList_length (st : PlannerState) :
    (filteredNodeList st).length = (buildGraphT st).length := by
  have hperm : List.Perm (filteredNodeList st) (alKeys (buildGraphT st)) := by
    apply (List.perm_ext_iff_of_nodup (filteredNodeList_nodup st) (buildGraphT_nodup st)).mpr
    intro v
    rw [filteredNodeList_mem, buildGraphT_mem]
  rw [hperm.length_eq]
  simp [alKeys]

/-! ### Claim C2 — topological sort on an acyclic filtered graph -/

/-- C2: on a well-formed planner state (every referenced name has a node,
spec §3) whose filtered subgraph of not-yet-completed nodes is acyclic
(witnessed by a rank function that strictly increases along every filtered
dependency edge), `topological_sort` raises nothing, reports no cycle, and
produces an execution order that is duplicate-free, contains exactly the
not-yet-completed nodes, places every not-yet-completed dependency strictly
before its dependent, and whose length equals the number of not-yet-completed
nodes. -/
theorem C2_topological_sort_acyclic (st : PlannerState) (hcl : GraphClosed st)
    (hacyc : ∃ rank : String → Nat, ∀ u v, EdgeF st u v → rank u < rank v) :
    (topological_sort st).err = none ∧
    (topological_sort st).retMsg = none ∧
    (topological_sort st).state.execute_list.Nodup ∧
    (∀ v, v ∈ (topological_sort st).state.execute_list ↔ FilteredNode st v) ∧
    (∀ u v, EdgeF st u v →
      List.Sublist [u, v] (topological_sort st).state.execute_list) ∧
    (topological_sort st).state.execute_list.length = (filteredNodeList st).length := by
  obtain ⟨rank, hrank⟩ := hacyc
  obtain ⟨d', hinv, herr, hnode, hgraph, hmsg1, hmsg2⟩ := topological_sort_run st hcl
  have hND := buildGraphT_nodup st
  have hmemk : ∀ v, v ∈ (topological_sort st).state.execute_list ↔
      (v ∈ alKeys (buildGraphT st) ∧
        predsOut (buildGraphT st) (topological_sort st).state.execute_list v = 0) := by
    intro v
    have := hinv.mem_iff v
    simpa using this
  have hcomplete : ∀ n, ∀ v, rank v = n → v ∈ alKeys (buildGraphT st) →
      v ∈ (topological_sort st).state.execute_list := by
    intro n
    induction n using Nat.strong_induction_on with
    | _ n ihn =>
      intro v hrv hv
      have hpred : ∀ u, EdgeG (buildGraphT st) u v →
          u ∈ (topological_sort st).state.execute_list := by
        intro u hu
        have hf := (buildGraphT_edge st u v).mp hu
        have hlt : rank u < rank v := hrank u v hf
        exact ihn (rank u) (by omega) u rfl (edgeG_source_mem _ hu)
      have hz : predsOut (buildGraphT st) (topological_sort st).state.execute_list v = 0 :=
        (predsOut_eq_zero_iff hND _ v).mpr hpred
      exact (hmemk v).mpr ⟨hv, hz⟩
  have hmem : ∀ v, v ∈ (topological_sort st).state.execute_list ↔
      v ∈ alKeys (buildGraphT st) := by
    intro v
    constructor
    · intro h
      exact ((hmemk v).mp h).1
    · intro h
      exact hcomplete (rank v) v rfl h
  have hnd_order : (topological_sort st).state.execute_list.Nodup := by
    have := hinv.nodup
    simpa using this
  have hperm : List.Perm (topological_sort st).state.execute_list
      (alKeys (buildGraphT st)) :=
    (List.perm_ext_iff_of_nodup hnd_order hND).mpr hmem
  have hlen : (topological_sort st).state.execute_list.length = (buildGraphT st).length := by
    rw [hperm.length_eq]
    simp [alKeys]
  refine ⟨herr, hmsg1 hlen, hnd_order, ?_, ?_, ?_⟩
  · intro v
    rw [hmem v, buildGraphT_mem]
  · intro u v he
    have heg : EdgeG (buildGraphT st) u v := (buildGraphT_edge st u v).mpr he
    have hu : u ∈ (topological_sort st).state.execute_list :=
      (hmem u).mpr (edgeG_source_mem _ heg)
    have hvk : v ∈ alKeys (buildGraphT st) := by
      rw [buildGraphT_mem]
      obtain ⟨p, hp, h1, rfl, -, -⟩ := he
      exact ⟨p, hp, h1, Or.inl rfl⟩
    have hv : v ∈ (topological_sort st).state.execute_list := (hmem v).mpr hvk
    have hne : u ≠ v := by
      rintro rfl
      exact hinv.no_self u hu heg
    rcases two_mem_sublist_or hu hv hne with h | h
    · exact h
    · exact absurd heg (pairwise_of_sublist_pair h hinv.no_back)
  · rw [hlen, filteredNodeList_length]

/-! ### Claim C3 — topological sort in the presence of a cycle -/

theorem cycle_pred {st : PlannerState} {c : List String} (hc : c ≠ [])
    (hchain : List.Chain' (EdgeF st) c)
    (hwrap : EdgeF st (c.getLast hc) (c.head hc)) :
    ∀ v ∈ c, ∃ u ∈ c, EdgeF st u v := by
  intro v hv
  obtain ⟨⟨i, hi⟩, hget⟩ := List.mem_iff_get.mp hv
  rcases i with _ | j
  · refine ⟨c.getLast hc, List.getLast_mem hc, ?_⟩
    rw [← hget]
    have hhead : c.get ⟨0, hi⟩ = c.head hc := by
      rw [List.get_eq_getElem, List.head_eq_getElem_zero hc]
    rw [hhead]
    exact hwrap
  · have hj : j < c.length := by omega
    refine ⟨c.get ⟨j, hj⟩, c.get_mem j hj, ?_⟩
    rw [← hget]
    exact List.chain'_iff_get.mp hchain j (by omega)

/-- C3: on a well-formed planner state whose not-yet-completed subgraph
contains a dependency cycle, `topological_sort` raises nothing, returns the
cycle-message string instead (the method's return value — the callers in
`decompose_task`/`replan_task` discard it), schedules none of the nodes on
the cycle, and places strictly fewer nodes in the order than the number of
not-yet-completed nodes. -/
theorem C3_topological_sort_cycle (st : PlannerState) (hcl : GraphClosed st)
    (c : List String) (hc : c ≠ []) (hchain : List.Chain' (EdgeF st) c)
    (hwrap : EdgeF st (c.getLast hc) (c.head hc)) :
    (topological_sort st).err = none ∧
    (topological_sort st).retMsg = some cycleMsg ∧
    (∀ v ∈ c, v ∉ (topological_sort st).state.execute_list) ∧
    (topological_sort st).state.execute_list.length < (filteredNodeList st).length := by
  obtain ⟨d', hinv, herr, hnode, hgraph, hmsg1, hmsg2⟩ := topological_sort_run st hcl
  have hND := buildGraphT_nodup st
  have hpred := cycle_pred hc hchain hwrap
  have hmemk : ∀ v, v ∈ (topological_sort st).state.execute_list ↔
      (v ∈ alKeys (buildGraphT st) ∧
        predsOut (buildGraphT st) (topological_sort st).state.execute_list v = 0) := by
    intro v
    have := hinv.mem_iff v
    simpa using this
  have hnd_order : (topological_sort st).state.execute_list.Nodup := by
    have := hinv.nodup
    simpa using this
  have hmain : ∀ n, ∀ v, v ∈ c → v ∈ (topological_sort st).state.execute_list →
      (topological_sort st).state.execute_list.indexOf v = n → False := by
    intro n
    induction n using Nat.strong_induction_on with
    | _ n ihn =>
      intro v hvc hvo hidx
      obtain ⟨u, huc, hef⟩ := hpred v hvc
      have heg : EdgeG (buildGraphT st) u v := (buildGraphT_edge st u v).mpr hef
      have hz := ((hmemk v).mp hvo).2
      have huo : u ∈ (topological_sort st).state.execute_list :=
        (predsOut_eq_zero_iff hND _ v).mp hz u heg
      have hne : u ≠ v := by
        rintro rfl
        exact hinv.no_self u hvo heg
      have hsub : List.Sublist [u, v] (topological_sort st).state.execute_list := by
        rcases two_mem_sublist_or huo hvo hne with h | h
        · exact h
        · exact absurd heg (pairwise_of_sublist_pair h hinv.no_back)
      have hlt := indexOf_lt_of_sublist_pair hsub hnd_order
      exact ihn ((topological_sort st).state.execute_list.indexOf u) (by omega) u huc huo rfl
  have hnotin : ∀ v ∈ c, v ∉ (topological_sort st).state.execute_list :=
    fun v hv hvo => hmain ((topological_sort st).state.execute_list.indexOf v) v hv hvo rfl
  have hsubk : (topological_sort st).state.execute_list ⊆ alKeys (buildGraphT st) :=
    fun v hv => ((hmemk v).mp hv).1
  have hheadk : c.head hc ∈ alKeys (buildGraphT st) := by
    rw [buildGraphT_mem]
    obtain ⟨p, hp, h1, heq, -, -⟩ := hwrap
    exact ⟨p, hp, h1, Or.inl heq⟩
  have hheadnot : c.head hc ∉ (topological_sort st).state.execute_list :=
    hnotin _ (List.head_mem hc)
  have hlen : (topological_sort st).state.execute_list.length <
      (alKeys (buildGraphT st)).length := by
    have hsub2 : (topological_sort st).state.execute_list ⊆
        (alKeys (buildGraphT st)).erase (c.head hc) := by
      intro a ha
      have hak := hsubk ha
      have hane : a ≠ c.head hc := by
        rintro rfl
        exact hheadnot ha
      exact (List.mem_erase_of_ne hane).mpr hak
    have h1 := (hnd_order.subperm hsub2).length_le
    have h2 : ((alKeys (buildGraphT st)).erase (c.head hc)).length =
        (alKeys (buildGraphT st)).length - 1 :=
      List.length_erase_of_mem hheadk
    have h3 : 0 < (alKeys (buildGraphT st)).length := List.length_pos_of_mem hheadk
    omega
  have hlen2 : (topological_sort st).state.execute_list.length <
      (filteredNodeList st).length := by
    rw [filteredNodeList_length]
    have : (alKeys (buildGraphT st)).length = (buildGraphT st).length := by simp [alKeys]
    omega
  refine ⟨herr, ?_, hnotin, hlen2⟩
  apply hmsg2
  have : (alKeys (buildGraphT st)).length = (buildGraphT st).length := by simp [alKeys]
  omega

/-- Witness state for C2: a single uncompleted task with no dependencies. -/
def stAcyc : PlannerState :=
  ⟨[("A", ActionNode.new "A" "d" "f")], [("A", [])], []⟩

/-- Witness for C2 at `stAcyc` (rank function constantly zero — the filtered
graph has no edges). -/
theorem C2_witness :
    (topological_sort stAcyc).err = none ∧
    (topological_sort stAcyc).retMsg = none ∧
    (topological_sort stAcyc).state.execute_list.Nodup := by
  have hcl : GraphClosed stAcyc := by
    unfold GraphClosed
    decide
  have hacyc : ∃ rank : String → Nat, ∀ u v, EdgeF stAcyc u v → rank u < rank v := by
    refine ⟨fun _ => 0, ?_⟩
    rintro u v ⟨p, hp, -, -, h3, -⟩
    simp [stAcyc] at hp
    subst hp
    simp at h3
  obtain ⟨he, hm, hnd, -, -, -⟩ := C2_topological_sort_acyclic stAcyc hcl hacyc
  exact ⟨he, hm, hnd⟩

/-- Witness state for C3: two uncompleted tasks depending on each other. -/
def stCyc : PlannerState :=
  ⟨[("A", ActionNode.new "A" "d" "f"), ("B", ActionNode.new "B" "d" "f")],
   [("A", ["B"]), ("B", ["A"])], []⟩

/-- Witness for C3 at `stCyc` with the cycle `A → B → A`. -/
theorem C3_witness :
    (topological_sort stCyc).retMsg = some cycleMsg ∧
    "A" ∉ (topological_sort stCyc).state.execute_list ∧
    (topological_sort stCyc).state.execute_list.length < (filteredNodeList stCyc).length := by
  have hcl : GraphClosed stCyc := by
    unfold GraphClosed
    decide
  have hc : (["A", "B"] : List String) ≠ [] := by simp
  have heAB : EdgeF stCyc "A" "B" := by
    refine ⟨("B", ["A"]), ?_, rfl, rfl, ?_, rfl⟩
    · simp [stCyc]
    · simp
  have heBA : EdgeF stCyc "B" "A" := by
    refine ⟨("A", ["B"]), ?_, rfl, rfl, ?_, rfl⟩
    · simp [stCyc]
    · simp
  have hchain : List.Chain' (EdgeF stCyc) ["A", "B"] := List.chain'_pair.mpr heAB
  have hwrap : EdgeF stCyc ((["A", "B"] : List String).getLast hc)
      ((["A", "B"] : List String).head hc) := heBA
  obtain ⟨-, hmsg, hnotin, hlen⟩ := C3_topological_sort_cycle stCyc hcl ["A", "B"] hc hchain hwrap
  exact ⟨hmsg, hnotin "A" (by simp), hlen⟩

/-! ### Claim C7 — `add_new_action` (extend_from) -/

/-- The scenario of the claim: existing graph `{A: [], B: [A]}`. -/
def stScenario : PlannerState :=
  ⟨[("A", ActionNode.new "A" "dA" "f"), ("B", ActionNode.new "B" "dB" "f")],
   [("A", []), ("B", ["A"])], []⟩

/-- The replanning subgraph `{X: [], Y: [X]}` of the claim. -/
def tasksScenario : List (String × TaskInfo) :=
  [("X", ⟨"dX", "f", []⟩), ("Y", ⟨"dY", "f", ["X"]⟩)]

/-- C7: for every state and every nonempty replanning subgraph,
`add_new_action` inserts the subgraph's nodes and dependency lists exactly as
the ordinary insertion loop (`insertTasks`, the body of
`create_action_graph`) does, and additionally appends one edge making the
anchor task depend on the last-inserted node.  In the claim's scenario,
`extend_from("B", {X: [], Y: [X]})` on `{A: [], B: [A]}` makes `B` depend on
`["A", "Y"]`, and the subsequent topological order is `[A, X, Y, B]` — `X`
then `Y` strictly before `B` — with no cycle reported. -/
theorem C7_add_new_action_extends (st : PlannerState)
    (tasks : List (String × TaskInfo)) (cur : String) (h : tasks ≠ []) :
    (∃ last, (tasks.map Prod.fst).getLast? = some last ∧
      add_new_action st tasks cur = .ok
        { insertTasks st tasks with
          action_graph := alSet (insertTasks st tasks).action_graph cur
            (alGetD (insertTasks st tasks).action_graph cur [] ++ [last]) }) ∧
    (add_new_action stScenario tasksScenario "B").map
      (fun s => alGet? s.action_graph "B") = .ok (some ["A", "Y"]) ∧
    (add_new_action stScenario tasksScenario "B").map
      (fun s => (topological_sort s).state.execute_list) = .ok ["A", "X", "Y", "B"] ∧
    (add_new_action stScenario tasksScenario "B").map
      (fun s => (topological_sort s).retMsg) = .ok none := by
  refine ⟨?_, rfl, rfl, rfl⟩
  have hlast : ∃ last, (tasks.map Prod.fst).getLast? = some last := by
    have hne : tasks.map Prod.fst ≠ [] := by simpa using h
    rcases hx : (tasks.map Prod.fst).getLast? with _ | last
    · exact absurd (List.getLast?_eq_none_iff.mp hx) hne
    · exact ⟨last, rfl⟩
  obtain ⟨last, hlast⟩ := hlast
  refine ⟨last, hlast, ?_⟩
  rw [add_new_action, hlast]
  rfl

/-- Witness for C7 at the scenario inputs. -/
theorem C7_witness :
    ∃ last, (tasksScenario.map Prod.fst).getLast? = some last ∧
      add_new_action stScenario tasksScenario "B" = .ok
        { insertTasks stScenario tasksScenario with
          action_graph := alSet (insertTasks stScenario tasksScenario).action_graph "B"
            (alGetD (insertTasks stScenario tasksScenario).action_graph "B" [] ++ [last]) } :=
  (C7_add_new_action_extends stScenario tasksScenario "B" (by simp [tasksScenario])).1
